import Mathlib

/-!
Verification development for the scheduling core of `coalib/core/Core.py`.

The Python module consists of five functions: `group`, `get_cpu_count`,
`cleanup_bear`, `schedule_bears`, `finish_task` and `run`.  All of them are
embedded below as executable Lean definitions, following the source line by
line.  Opaque Python values are modelled as follows:

* a bear object is identified by its dict key (a `Nat`), since the registry
  `running_tasks` is a Python dict keyed by the bear instances;
* the tasks generated by one bear occurrence are described by the list of
  outcomes of their `execute_task` calls: `Except Nat (List R)`, where
  `.error e` stands for a raised exception (an opaque exception value `e`)
  and `.ok rs` for the returned sequence of results;
* the futures returned by `event_loop.run_in_executor` are pairwise distinct
  objects; they are modelled by sequentially assigned natural numbers;
* the completion order of the futures is scheduler nondeterminism, so the
  event loop is parametrised by the order in which completions are handled.
-/

namespace Coala

/-! ## The `group` utility -/

section Group

variable {α κ : Type}

/-- Embedding of Python `keys.index(k)` under `==`-comparison: the index of
the first element equal to `k`, or `none` when `list.index` raises
`ValueError`. -/
def listIndex [DecidableEq κ] (k : κ) : List κ → Option Nat
  | [] => none
  | k' :: rest => if k' = k then some 0 else (listIndex k rest).map (· + 1)

/-- Embedding of `element_list.append(element)` where `element_list` is the
`i`-th entry of the parallel list `elements`: appends `e` to the `i`-th
group. -/
def appendAt (i : Nat) (e : α) : List (List α) → List (List α)
  | [] => []
  | g :: rest =>
    match i with
    | 0 => (g ++ [e]) :: rest
    | i + 1 => g :: appendAt i e rest

/-- The body of the `for element in iterable` loop of `group`, carrying the
two parallel accumulator lists `keys` and `elements` of the source. -/
def groupCore [DecidableEq κ] (key : α → κ) :
    List α → List κ → List (List α) → List κ × List (List α)
  | [], keys, elements => (keys, elements)
  | e :: rest, keys, elements =>
    match listIndex (key e) keys with
    | some position => groupCore key rest keys (appendAt position e elements)
    | none => groupCore key rest (keys ++ [key e]) (elements ++ [[e]])

/-- Embedding of `group(iterable, key)`: runs the accumulation loop starting
from two empty lists and returns `zip(keys, elements)`. -/
def group [DecidableEq κ] (l : List α) (key : α → κ) : List (κ × List α) :=
  let r := groupCore key l [] []
  r.1.zip r.2

/-- Specification-side helper: the keys of `l` in order of first occurrence
(each key kept once, at the position of its first occurrence). -/
def firstOccur [DecidableEq κ] : List κ → List κ
  | [] => []
  | k :: rest => k :: firstOccur (rest.filter (fun k' => ¬ k' = k))
  termination_by l => l.length
  decreasing_by
    simp only [List.length_cons]
    exact Nat.lt_succ_of_le (List.length_filter_le _ _)

end Group

/-! ## The scheduling core -/

section Core

variable {R : Type}

/-- Outcome of one `execute_task` call of a bear: `.ok rs` models a
returned sequence of results and `.error e` models a raised exception
carrying the opaque exception value `e` (what `exc_info` receives). -/
inductive TaskOutcome (R : Type) where
  | ok (results : List R)
  | error (ex : Nat)
deriving DecidableEq

/-- One completion event of a submitted future.  The done-callback attached
in `schedule_bears` is bound via `functools.partial` to the scheduling-time
bear, so the event carries the bear's dict key alongside the future's
identity and the outcome its `execute_task` call produces. -/
structure Event (R : Type) where
  bear : Nat
  task : Nat
  outcome : TaskOutcome R
deriving DecidableEq

/-- A record passed to `logging.error`: the literal message string and the
exception value passed as `exc_info`. -/
structure LogRecord where
  message : String
  excInfo : Nat
deriving DecidableEq

/-- The state of one run as observable between control-thread steps: the
`running_tasks` dict (an association list with Python-dict semantics:
insertion order, at most one entry per key, values are the sets of pending
future ids), the `_stopping` flag that `event_loop.stop()` sets, and the
observable traces of the run: the `finish_task` invocations (bear, task),
the error-log records, and the arguments of all `result_callback`
invocations in order. -/
structure RunState (R : Type) where
  registry : List (Nat × List Nat)
  stopping : Bool
  handlerCalls : List (Nat × Nat)
  errorLog : List LogRecord
  callbackCalls : List R
deriving DecidableEq

/-- Python `running_tasks[bear]` as a total lookup; `none` models a raised
`KeyError`. -/
def dictGet (reg : List (Nat × List Nat)) (k : Nat) : Option (List Nat) :=
  (reg.find? (fun p => p.1 = k)).map (fun p => p.2)

/-- Python `running_tasks[bear] = tasks`: replaces the value in place when
the key is present (keeping its dict position), otherwise appends a new
entry at the end. -/
def dictSet (reg : List (Nat × List Nat)) (k : Nat) (v : List Nat) :
    List (Nat × List Nat) :=
  if k ∈ reg.map (fun p => p.1) then
    reg.map (fun p => if p.1 = k then (k, v) else p)
  else reg ++ [(k, v)]

/-- Python `del running_tasks[bear]`. -/
def dictDel (reg : List (Nat × List Nat)) (k : Nat) : List (Nat × List Nat) :=
  reg.filter (fun p => ¬ p.1 = k)

/-- The literal message of the task-failure record in `finish_task`. -/
def bearExecutionMsg : String :=
  "An exception was thrown during bear execution."

/-- The literal message of the callback-failure record in `finish_task`. -/
def resultHandlingMsg : String :=
  "An exception was thrown during result-handling."

/-- Embedding of `cleanup_bear`: if the given bear has no running tasks
left it removes the bear from the `running_tasks` dict, and if no tasks
remain at all it calls `event_loop.stop()`.  A `none` lookup models the
`KeyError` that `running_tasks[bear]` would raise (never reached from the
call sites, which look the bear up first). -/
def cleanup_bear (st : RunState R) (bear : Nat) : RunState R :=
  match dictGet st.registry bear with
  | none => st
  | some ts =>
    let reg := if ts.isEmpty then dictDel st.registry bear else st.registry
    { st with registry := reg, stopping := st.stopping || reg.isEmpty }

/-- The body of the `for result in results` loop at the end of
`finish_task`: invoke `result_callback(result)`, and log (and otherwise
ignore) an exception the callback raises; `cb r = some ex` models the
callback raising the exception value `ex` on `r`. -/
def forward_result (cb : R → Option Nat) (s : RunState R) (r : R) :
    RunState R :=
  let s' := { s with callbackCalls := s.callbackCalls ++ [r] }
  match cb r with
  | some ex => { s' with errorLog := s'.errorLog ++
      [⟨resultHandlingMsg, ex⟩] }
  | none => s'

/-- Embedding of `finish_task`, the done-callback of one future.  The
`try/except` around `task.result()` is the match on the outcome: a failure
is logged (fixed message, `exc_info` only) and `results` becomes `None`.
The `finally` block removes the future from the bear's task set and runs
`cleanup_bear`; when `running_tasks[bear]` or `set.remove` raises
`KeyError`, that exception escapes the callback (asyncio logs and swallows
it), so neither the removal, the cleanup nor the forwarding happens.
Forwarding invokes `result_callback` on every result in order via
`forward_result`. -/
def finish_task (cb : R → Option Nat) (st : RunState R) (e : Event R) :
    RunState R :=
  let st0 := { st with handlerCalls := st.handlerCalls ++ [(e.bear, e.task)] }
  let st1 := match e.outcome with
    | .error ex => { st0 with errorLog := st0.errorLog ++
        [⟨bearExecutionMsg, ex⟩] }
    | .ok _ => st0
  match dictGet st1.registry e.bear with
  | none => st1
  | some ts =>
    if e.task ∈ ts then
      let st2 := { st1 with
        registry := dictSet st1.registry e.bear (ts.erase e.task) }
      let st3 := cleanup_bear st2 e.bear
      match e.outcome with
      | .error _ => st3
      | .ok results => results.foldl (forward_result cb) st3
    else st1

/-- Embedding of `schedule_bears`.  A bear occurrence is a pair of its dict
key and the outcomes of its generated tasks; each `run_in_executor` call
returns a fresh future, modelled by consecutive ids starting at `nextId`.
Returns the state after the loop, the completion events of all submitted
futures in submission order, and the next fresh id.  The `logging.debug`
call of the source is not modelled. -/
def schedule_bears (st : RunState R) (nextId : Nat) :
    List (Nat × List (TaskOutcome R)) → RunState R × List (Event R) × Nat
  | [] => (st, [], nextId)
  | (bear, outcomes) :: rest =>
    let tasks := List.range' nextId outcomes.length
    let st1 := { st with registry := dictSet st.registry bear tasks }
    let evs : List (Event R) :=
      (tasks.zip outcomes).map (fun p => ⟨bear, p.1, p.2⟩)
    let st2 := if tasks.isEmpty then cleanup_bear st1 bear else st1
    let r := schedule_bears st2 (nextId + outcomes.length) rest
    (r.1, evs ++ r.2.1, r.2.2)

/-- The state at the start of `run`: the empty dict passed to
`schedule_bears`, loop not stopping, no events observed yet. -/
def initState (R : Type) : RunState R := ⟨[], false, [], [], []⟩

/-- Scheduling as performed by `run`: onto the empty dict, fresh future ids
from 0. -/
def runSched (bears : List (Nat × List (TaskOutcome R))) :
    RunState R × List (Event R) × Nat :=
  schedule_bears (initState R) 0 bears

/-- Embedding of `event_loop.run_forever()`: the loop breaks as soon as it
observes `_stopping`; otherwise it blocks until a completion arrives and
dispatches its done-callback (`finish_task`).  The completion order is
scheduler nondeterminism and is passed explicitly.  `none` models the loop
blocking forever because no completion will ever arrive; completions still
pending when the loop observes `_stopping` are never dispatched (their
`call_soon_threadsafe` reaches an already-closed loop). -/
def run_forever (cb : R → Option Nat) :
    List (Event R) → RunState R → Option (RunState R)
  | [], st => if st.stopping then some st else none
  | e :: rest, st =>
    if st.stopping then some st
    else run_forever cb rest (finish_task cb st e)

/-- Embedding of `run(bears, result_callback)` without the resource
actions: schedule the bears onto an empty dict, then drive the event loop
over the completion order `order`. -/
def run (cb : R → Option Nat) (bears : List (Nat × List (TaskOutcome R)))
    (order : List (Event R)) : Option (RunState R) :=
  run_forever cb order (runSched bears).1

/-- Embedding of `get_cpu_count`: `cpus = some n` models
`multiprocessing.cpu_count()` returning `n` and `cpus = none` models it
raising `NotImplementedError` (the only exception the `except` clause
catches and the only one the query is documented to raise); the handler
returns 1.  The embedding is a total function: no outcome of the query
makes it raise. -/
def get_cpu_count (cpus : Option Nat) : Nat :=
  match cpus with
  | some n => n
  | none => 1

/-- Resource actions of one `run` call: how often `executor.shutdown` was
invoked, how often `event_loop.close()` ran, and the `max_workers` the pool
was created with. -/
structure RunTrace where
  poolShutdowns : Nat
  loopCloses : Nat
  poolMaxWorkers : Nat
deriving DecidableEq

/-- Embedding of `run` including its resource handling.  The source creates
the `SelectorEventLoop` and the
`ProcessPoolExecutor(max_workers=get_cpu_count())`, calls `schedule_bears`
outside any `try`, and wraps only `event_loop.run_forever()` in
`try/finally: event_loop.close()`.  No statement of the module calls
`executor.shutdown`, so the shutdown count is 0 on every path, and the loop
is closed exactly when `run_forever` returns (when it blocks forever the
`finally` never runs). -/
def run_with_resources (cb : R → Option Nat) (cpus : Option Nat)
    (bears : List (Nat × List (TaskOutcome R))) (order : List (Event R)) :
    RunTrace × Option (RunState R) :=
  let created : RunTrace := ⟨0, 0, get_cpu_count cpus⟩
  match run cb bears order with
  | some st => ({ created with loopCloses := created.loopCloses + 1 }, some st)
  | none => (created, none)

/-- Total number of tasks generated by a list of bear occurrences. -/
def totalTasks (bears : List (Nat × List (TaskOutcome R))) : Nat :=
  (bears.map (fun b => b.2.length)).sum

/-- Invariant tying the registry to the not-yet-dispatched completion
events: every registered bear has a nonempty, duplicate-free task set, task
sets of distinct bears are disjoint, every registered task still has a
pending completion event carrying the owning bear, pending events have
pairwise distinct task ids, and a pending event whose task id is registered
carries the key of the owning bear. -/
structure LoopInv (st : RunState R) (remaining : List (Event R)) : Prop where
  keysNodup : (st.registry.map (fun p => p.1)).Nodup
  entryNonempty : ∀ p ∈ st.registry, ¬ p.2 = []
  entryNodup : ∀ p ∈ st.registry, p.2.Nodup
  tasksDisj : ∀ p ∈ st.registry, ∀ q ∈ st.registry, ¬ p.1 = q.1 →
    ∀ t ∈ p.2, ¬ t ∈ q.2
  hasEvent : ∀ p ∈ st.registry, ∀ t ∈ p.2,
    ∃ o, (⟨p.1, t, o⟩ : Event R) ∈ remaining
  evNodup : (remaining.map (fun e => e.task)).Nodup
  evBearMatch : ∀ e ∈ remaining, ∀ p ∈ st.registry, e.task ∈ p.2 →
    e.bear = p.1

/-- Structural facts established by `schedule_bears st n bears`, with `r`
its result triple (final state, submission events, next fresh id). -/
structure SchedProps (st : RunState R) (n : Nat)
    (bears : List (Nat × List (TaskOutcome R)))
    (r : RunState R × List (Event R) × Nat) : Prop where
  evTasks : r.2.1.map (fun e => e.task) = List.range' n (totalTasks bears)
  nextId : r.2.2 = n + totalTasks bears
  keysNodup : (r.1.registry.map (fun p => p.1)).Nodup
  entryNonempty : ∀ p ∈ r.1.registry, ¬ p.2 = []
  entryNodup : ∀ p ∈ r.1.registry, p.2.Nodup
  tasksDisj : ∀ p ∈ r.1.registry, ∀ q ∈ r.1.registry, ¬ p.1 = q.1 →
    ∀ t ∈ p.2, ¬ t ∈ q.2
  bound : ∀ p ∈ r.1.registry, ∀ t ∈ p.2, t < r.2.2
  covered : ∀ p ∈ r.1.registry, p ∈ st.registry ∨
    ∀ t ∈ p.2, ∃ o, (⟨p.1, t, o⟩ : Event R) ∈ r.2.1
  stopEmpty : r.1.registry = [] → r.1.stopping = true ∨ bears = []
  hCalls : r.1.handlerCalls = st.handlerCalls
  cCalls : r.1.callbackCalls = st.callbackCalls
  eLog : r.1.errorLog = st.errorLog

/-- The future ids `schedule_bears` assigns to the first occurrence of the
bear with dict key `k`, when scheduling `bears` with fresh ids from `n`. -/
def idsOfAux (R : Type) : Nat → List (Nat × List (TaskOutcome R)) → Nat → List Nat
  | _, [], _ => []
  | n, (k', outs) :: rest, k =>
    if k' = k then List.range' n outs.length
    else idsOfAux R (n + outs.length) rest k

/-- Ids assigned to bear `k` by a run's scheduling phase. -/
def idsOf (bears : List (Nat × List (TaskOutcome R))) (k : Nat) : List Nat :=
  idsOfAux R 0 bears k

/-- The tasks of bear `k` whose completion events do not occur in the
already-dispatched prefix `p`: its outstanding handles. -/
def pendingTasks (bears : List (Nat × List (TaskOutcome R)))
    (p : List (Event R)) (k : Nat) : List Nat :=
  (idsOf bears k).filter (fun t => ¬ t ∈ p.map (fun e => e.task))

end Core

section GroupLemmas

variable {α κ : Type} [DecidableEq κ]

theorem listIndex_eq_none_iff (k : κ) (l : List κ) :
    listIndex k l = none ↔ k ∉ l := by
  induction l with
  | nil => simp [listIndex]
  | cons k' rest ih =>
    by_cases h : k' = k
    · subst h
      simp [listIndex]
    · simp only [listIndex, if_neg h, Option.map_eq_none', ih, List.mem_cons]
      constructor
      · rintro hn (rfl | hm)
        · exact h rfl
        · exact hn hm
      · intro hn
        exact fun hm => hn (Or.inr hm)

theorem listIndex_eq_some (k : κ) (l : List κ) (i : Nat)
    (h : listIndex k l = some i) : ∃ hi : i < l.length, l.get ⟨i, hi⟩ = k := by
  induction l generalizing i with
  | nil => simp [listIndex] at h
  | cons k' rest ih =>
    by_cases hk : k' = k
    · subst hk
      simp [listIndex] at h
      subst h
      exact ⟨Nat.succ_pos _, rfl⟩
    · simp only [listIndex, if_neg hk, Option.map_eq_some'] at h
      obtain ⟨j, hj, rfl⟩ := h
      obtain ⟨hlt, hget⟩ := ih j hj
      exact ⟨Nat.succ_lt_succ hlt, hget⟩

theorem mem_of_mem_firstOccur (x : κ) (l : List κ)
    (h : x ∈ firstOccur l) : x ∈ l := by
  induction l using firstOccur.induct with
  | case1 => simp [firstOccur] at h
  | case2 k rest ih =>
    rw [firstOccur] at h
    rcases List.mem_cons.mp h with rfl | h
    · exact List.mem_cons_self _ _
    · exact List.mem_cons_of_mem _ (List.mem_of_mem_filter (ih h))

theorem firstOccur_nodup (l : List κ) : (firstOccur l).Nodup := by
  induction l using firstOccur.induct with
  | case1 => simp [firstOccur]
  | case2 k rest ih =>
    rw [firstOccur]
    refine List.nodup_cons.mpr ⟨fun hmem => ?_, ih⟩
    have := List.of_mem_filter (mem_of_mem_firstOccur _ _ hmem)
    simp at this

/-- Appending an element to the group at the index its key occupies in
`keys` has the same effect as filtering the element into every group whose
key matches. -/
theorem zip_appendAt (key : α → κ) (e : α) (rest : List α)
    (keys : List κ) (elems : List (List α)) (i : Nat)
    (hlen : keys.length = elems.length)
    (hidx : listIndex (key e) keys = some i)
    (hnd : keys.Nodup) :
    (keys.zip (appendAt i e elems)).map
        (fun p => p.2 ++ rest.filter (fun x => key x = p.1)) =
    (keys.zip elems).map
        (fun p => p.2 ++ (e :: rest).filter (fun x => key x = p.1)) := by
  induction keys generalizing elems i with
  | nil => simp
  | cons k0 kt ih =>
    cases elems with
    | nil => simp at hlen
    | cons g gt =>
      have hlen' : kt.length = gt.length := by simpa using hlen
      have hnd' : kt.Nodup := (List.nodup_cons.mp hnd).2
      by_cases hk0 : k0 = key e
      · have hi0 : i = 0 := by
          rw [listIndex, if_pos hk0] at hidx
          simpa using hidx.symm
        subst hi0
        simp only [appendAt, List.zip_cons_cons, List.map_cons]
        congr 1
        · simp [List.filter_cons, hk0.symm, List.append_assoc]
        · refine List.map_congr_left fun p hp => ?_
          have hp1 : p.1 ∈ kt := (List.of_mem_zip hp).1
          have hne : key e ≠ p.1 := by
            intro h
            refine (List.nodup_cons.mp hnd).1 ?_
            rw [hk0, h]
            exact hp1
          simp [List.filter_cons, hne]
      · rw [listIndex, if_neg hk0] at hidx
        obtain ⟨j, hj, rfl⟩ := Option.map_eq_some'.mp hidx
        simp only [appendAt, List.zip_cons_cons, List.map_cons]
        congr 1
        · have hne : ¬ key e = k0 := fun h => hk0 h.symm
          simp [List.filter_cons, hne]
        · exact ih gt j hlen' hj hnd'

/-- Main characterisation of the accumulation loop of `group`: the final
keys are the accumulated keys followed by the first occurrences of the
unseen keys, and each group collects exactly the matching elements in input
order. -/
theorem groupCore_char (key : α → κ) (l : List α) :
    ∀ (keys : List κ) (elems : List (List α)),
      keys.Nodup → keys.length = elems.length →
      (groupCore key l keys elems).1 =
          keys ++ firstOccur ((l.map key).filter (fun x => ¬ x ∈ keys)) ∧
      (groupCore key l keys elems).2 =
          (keys.zip elems).map
              (fun p => p.2 ++ l.filter (fun x => key x = p.1)) ++
          (firstOccur ((l.map key).filter (fun x => ¬ x ∈ keys))).map
              (fun k => l.filter (fun x => key x = k)) := by
  induction l with
  | nil =>
    intro keys elems hnd hlen
    refine ⟨by simp [groupCore, firstOccur], ?_⟩
    simp only [groupCore, List.map_nil, List.filter_nil, firstOccur,
      List.append_nil]
    exact (List.map_snd_zip _ _ (le_of_eq hlen.symm)).symm
  | cons e rest ih =>
    intro keys elems hnd hlen
    simp only [groupCore]
    cases hidx : listIndex (key e) keys with
    | some i =>
      have hmem : key e ∈ keys := by
        by_contra hmem
        rw [(listIndex_eq_none_iff _ _).mpr hmem] at hidx
        exact Option.noConfusion hidx
      have hlen2 : keys.length = (appendAt i e elems).length := by
        rw [hlen]
        clear hidx hlen
        induction elems generalizing i with
        | nil => simp [appendAt]
        | cons g gt ihe =>
          cases i with
          | zero => simp [appendAt]
          | succ j => simpa [appendAt] using ihe j
      obtain ⟨h1, h2⟩ := ih keys (appendAt i e elems) hnd hlen2
      have hfe : ((e :: rest).map key).filter (fun x => ¬ x ∈ keys) =
          (rest.map key).filter (fun x => ¬ x ∈ keys) := by
        simp [List.filter_cons, hmem]
      constructor
      · rw [h1, hfe]
      · rw [h2, hfe]
        congr 1
        · exact zip_appendAt key e rest keys elems i hlen hidx hnd
        · refine List.map_congr_left fun k hk => ?_
          have hkm : ¬ k ∈ keys := by
            have := List.of_mem_filter (mem_of_mem_firstOccur _ _ hk)
            simpa using this
          have hne : ¬ key e = k := fun h => hkm (h ▸ hmem)
          simp [List.filter_cons, hne]
    | none =>
      have hmem : ¬ key e ∈ keys := (listIndex_eq_none_iff _ _).mp hidx
      have hnd2 : (keys ++ [key e]).Nodup := by
        simp [List.nodup_append, hmem, hnd]
      have hlen2 : (keys ++ [key e]).length = (elems ++ [[e]]).length := by
        simp [hlen]
      obtain ⟨h1, h2⟩ := ih (keys ++ [key e]) (elems ++ [[e]]) hnd2 hlen2
      have hff : (rest.map key).filter (fun x => ¬ x ∈ keys ++ [key e]) =
          ((rest.map key).filter (fun x => ¬ x ∈ keys)).filter
            (fun x => ¬ x = key e) := by
        rw [List.filter_filter]
        refine List.filter_congr fun x _ => ?_
        simp only [List.mem_append, List.mem_singleton, decide_eq_true_eq]
        by_cases h1 : x ∈ keys <;> by_cases h2 : x = key e <;>
          simp [h1, h2]
      have hfo : ((e :: rest).map key).filter (fun x => ¬ x ∈ keys) =
          key e :: (rest.map key).filter (fun x => ¬ x ∈ keys) := by
        simp [List.filter_cons, hmem]
      constructor
      · rw [h1, hfo, firstOccur, ← hff]
        simp
      · rw [h2, hfo, firstOccur, ← hff]
        rw [List.zip_append (by simpa using hlen)]
        simp only [List.map_append, List.map_cons, List.zip_cons_cons,
          List.zip_nil_right, List.map_nil, List.cons_append,
          List.nil_append]
        have hold : ∀ p ∈ keys.zip elems,
            p.2 ++ List.filter (fun x => key x = p.1) rest =
            p.2 ++ List.filter (fun x => key x = p.1) (e :: rest) := by
          intro p hp
          have hp1 : p.1 ∈ keys := (List.of_mem_zip hp).1
          have hne : ¬ key e = p.1 := fun h => hmem (h ▸ hp1)
          simp [List.filter_cons, hne]
        have htail : ∀ k ∈ firstOccur ((rest.map key).filter
              (fun x => ¬ x ∈ keys ++ [key e])),
            List.filter (fun x => key x = k) rest =
            List.filter (fun x => key x = k) (e :: rest) := by
          intro k hk
          have hmf := List.of_mem_filter (mem_of_mem_firstOccur _ _ hk)
          have hkne : ¬ key e = k := by
            intro h
            subst h
            simp at hmf
          simp [List.filter_cons, hkne]
        rw [List.map_congr_left hold, List.map_congr_left htail]
        simp [List.filter_cons, List.append_assoc]

theorem zip_self_map {β : Type} (L : List κ) (g : κ → β) :
    L.zip (L.map g) = L.map (fun a => (a, g a)) := by
  induction L with
  | nil => rfl
  | cons a t ih => simp [ih]

/-- The closed form of `group`: one output pair per first key occurrence,
each collecting the matching input elements in input order. -/
theorem group_eq (key : α → κ) (l : List α) :
    group l key = (firstOccur (l.map key)).map
      (fun k => (k, l.filter (fun x => key x = k))) := by
  obtain ⟨h1, h2⟩ := groupCore_char key l [] [] List.nodup_nil rfl
  have hf : (l.map key).filter (fun x => ¬ x ∈ ([] : List κ)) = l.map key := by
    simp
  rw [hf] at h1 h2
  show (groupCore key l [] []).1.zip (groupCore key l [] []).2 = _
  rw [h1, h2]
  simp only [List.nil_append, List.zip_nil_left, List.map_nil]
  exact zip_self_map _ _

theorem mem_firstOccur_of_mem (a : κ) (l : List κ) (h : a ∈ l) :
    a ∈ firstOccur l := by
  induction l using firstOccur.induct with
  | case1 => simp at h
  | case2 k rest ih =>
    rw [firstOccur]
    by_cases hak : a = k
    · exact hak ▸ List.mem_cons_self _ _
    · rcases List.mem_cons.mp h with rfl | h
      · exact absurd rfl hak
      · exact List.mem_cons_of_mem _ (ih (List.mem_filter.mpr
          ⟨h, by simpa using hak⟩))

theorem flatten_filter_cons_perm (key : α → κ) (e : α) (rest : List α) :
    ∀ ks : List κ, ks.Nodup → key e ∈ ks →
      List.Perm
        ((ks.map (fun k => (e :: rest).filter (fun x => key x = k))).flatten)
        (e :: (ks.map (fun k => rest.filter (fun x => key x = k))).flatten) := by
  intro ks
  induction ks with
  | nil => simp
  | cons k0 kt ih =>
    intro hnd hmem
    simp only [List.map_cons, List.flatten_cons]
    by_cases hk : key e = k0
    · have hkt : ∀ k ∈ kt, (e :: rest).filter (fun x => key x = k) =
          rest.filter (fun x => key x = k) := by
        intro k hkm
        have hne : ¬ key e = k := by
          intro h
          refine (List.nodup_cons.mp hnd).1 ?_
          rw [← hk, h]
          exact hkm
        simp [List.filter_cons, hne]
      rw [List.map_congr_left hkt]
      simp [List.filter_cons, hk]
    · have hm' : key e ∈ kt := by
        rcases List.mem_cons.mp hmem with h | h
        · exact absurd h hk
        · exact h
      have hhead : (e :: rest).filter (fun x => key x = k0) =
          rest.filter (fun x => key x = k0) := by
        simp [List.filter_cons, hk]
      rw [hhead]
      refine List.Perm.trans
        (List.Perm.append_left _ (ih (List.nodup_cons.mp hnd).2 hm')) ?_
      exact List.perm_middle

theorem flatten_filter_perm (key : α → κ) :
    ∀ (l : List α) (ks : List κ), ks.Nodup → (∀ x ∈ l, key x ∈ ks) →
      List.Perm ((ks.map (fun k => l.filter (fun x => key x = k))).flatten) l := by
  intro l
  induction l with
  | nil =>
    intro ks _ _
    simp
  | cons e rest ih =>
    intro ks hnd hcov
    refine ((flatten_filter_cons_perm key e rest ks hnd
      (hcov e (List.mem_cons_self _ _))).trans ?_)
    exact List.Perm.cons e (ih ks hnd (fun x hx => hcov x
      (List.mem_cons_of_mem _ hx)))

end GroupLemmas

/-! ## Claims about the `group` utility -/

section GroupClaims

/-- C8: `group` processes elements in order, locating each element's group by
an equality scan of the discovered-keys list; consequently the output lists
the groups in first-occurrence order of their keys with each group holding
the matching elements in input order, and the documented example
`group([1, 3, 7, 1, 2, 1, 2])` evaluates exactly as the doctest shows. -/
theorem C8_group_stable_grouping :
    (group [1, 3, 7, 1, 2, 1, 2] (fun x => x) =
      [(1, [1, 1, 1]), (3, [3]), (7, [7]), (2, [2, 2])]) ∧
    (∀ (α κ : Type) [DecidableEq κ] (l : List α) (key : α → κ),
      group l key = (firstOccur (l.map key)).map
        (fun k => (k, l.filter (fun x => key x = k)))) :=
  ⟨by decide, fun _ _ _ l key => group_eq key l⟩

/-- C10: the output of `group` is a partition of its input: the
concatenation of all groups is a permutation of the input (so every input
element appears exactly once across the groups and the group lengths sum to
the input length), every element sits in the group labelled with its own
key, and the group keys are pairwise distinct. -/
theorem C10_group_partition (α κ : Type) [DecidableEq κ]
    (l : List α) (key : α → κ) :
    List.Perm ((group l key).map (fun p => p.2)).flatten l ∧
    (∀ p ∈ group l key, ∀ e ∈ p.2, key e = p.1) ∧
    ((group l key).map (fun p => p.1)).Nodup ∧
    ((group l key).map (fun p => p.2.length)).sum = l.length := by
  have hchar := group_eq key l
  have hcov : ∀ x ∈ l, key x ∈ firstOccur (l.map key) := fun x hx =>
    mem_firstOccur_of_mem _ _ (List.mem_map_of_mem key hx)
  have hperm : List.Perm ((group l key).map (fun p => p.2)).flatten l := by
    rw [hchar, List.map_map]
    exact flatten_filter_perm key l _ (firstOccur_nodup _) hcov
  refine ⟨hperm, ?_, ?_, ?_⟩
  · intro p hp e he
    rw [hchar] at hp
    obtain ⟨k, _, rfl⟩ := List.mem_map.mp hp
    have he' : e ∈ l.filter (fun x => key x = k) := he
    show key e = k
    exact of_decide_eq_true (List.mem_filter.mp he').2
  · rw [hchar, List.map_map]
    have hmapid : ((firstOccur (l.map key)).map
        ((fun p => p.1) ∘ fun k => (k, l.filter (fun x => key x = k)))) =
        (firstOccur (l.map key)).map id :=
      List.map_congr_left fun k _ => rfl
    rw [hmapid, List.map_id]
    exact firstOccur_nodup _
  · have := hperm.length_eq
    rw [List.length_flatten, List.map_map] at this
    simpa using this

theorem C10_group_partition_witness :
    (((group [1, 3, 7, 1, 2, 1, 2] (fun x => x)).map
      (fun p => p.2)).flatten).Perm [1, 3, 7, 1, 2, 1, 2] ∧
    ((fun x => x) (1 : Nat)) = (1 : Nat) ∧
    (((group [1, 3, 7, 1, 2, 1, 2] (fun x => x)).map
      (fun p => p.1)).Nodup) ∧
    ((group [1, 3, 7, 1, 2, 1, 2] (fun x => x)).map
      (fun p => p.2.length)).sum = 7 := by
  obtain ⟨hperm, hmem, hnd, hlen⟩ := C10_group_partition Nat Nat
    [1, 3, 7, 1, 2, 1, 2] (fun x => x)
  exact ⟨hperm, hmem (1, [1, 1, 1]) (by decide) 1 (by decide), hnd, hlen⟩

end GroupClaims

/-! ## Dictionary lemmas -/

section DictLemmas

theorem dictGet_nil (k : Nat) : dictGet [] k = none := rfl

theorem dictGet_cons (p : Nat × List Nat) (reg : List (Nat × List Nat))
    (k : Nat) :
    dictGet (p :: reg) k = if p.1 = k then some p.2 else dictGet reg k := by
  by_cases h : p.1 = k
  · simp [dictGet, List.find?_cons_of_pos, h]
  · simp [dictGet, List.find?_cons_of_neg, h]

theorem dictGet_eq_none_of_not_mem_keys {reg : List (Nat × List Nat)}
    {k : Nat} (h : ¬ k ∈ reg.map (fun p => p.1)) : dictGet reg k = none := by
  induction reg with
  | nil => rfl
  | cons p rest ih =>
    have hp : ¬ p.1 = k := by
      intro hh
      exact h (by simp only [List.map_cons, List.mem_cons]; exact Or.inl hh.symm)
    rw [dictGet_cons, if_neg hp]
    refine ih fun hm => h ?_
    simp only [List.map_cons, List.mem_cons]
    exact Or.inr hm

theorem dictGet_isSome_of_mem_keys {reg : List (Nat × List Nat)}
    {k : Nat} (h : k ∈ reg.map (fun p => p.1)) :
    (dictGet reg k).isSome := by
  induction reg with
  | nil => simp at h
  | cons p rest ih =>
    rw [dictGet_cons]
    by_cases hk : p.1 = k
    · rw [if_pos hk]
      rfl
    · rw [if_neg hk]
      refine ih ?_
      simp only [List.map_cons, List.mem_cons] at h
      rcases h with h | h
      · exact absurd h.symm hk
      · exact h

theorem dictGet_append_single (reg : List (Nat × List Nat)) (k k' : Nat)
    (v : List Nat) :
    dictGet (reg ++ [(k, v)]) k' =
      match dictGet reg k' with
      | some ts => some ts
      | none => if k = k' then some v else none := by
  induction reg with
  | nil => rw [List.nil_append, dictGet_nil, dictGet_cons, dictGet_nil]
  | cons p rest ih =>
    rw [List.cons_append, dictGet_cons, dictGet_cons]
    by_cases hp : p.1 = k'
    · rw [if_pos hp, if_pos hp]
    · rw [if_neg hp, if_neg hp]
      exact ih

theorem dictGet_mem {reg : List (Nat × List Nat)} {k : Nat} {ts : List Nat}
    (h : dictGet reg k = some ts) : (k, ts) ∈ reg := by
  induction reg with
  | nil => simp [dictGet] at h
  | cons p rest ih =>
    rw [dictGet_cons] at h
    by_cases hp : p.1 = k
    · rw [if_pos hp] at h
      have hts : p.2 = ts := by
        cases h
        rfl
      have hpk : p = (k, ts) := by
        obtain ⟨p1, p2⟩ := p
        simp only at hp hts
        rw [hp, hts]
      exact hpk ▸ List.mem_cons_self _ _
    · rw [if_neg hp] at h
      exact List.mem_cons_of_mem _ (ih h)

theorem dictGet_of_mem_nodup {reg : List (Nat × List Nat)}
    (hnd : (reg.map (fun p => p.1)).Nodup) {p : Nat × List Nat}
    (hp : p ∈ reg) : dictGet reg p.1 = some p.2 := by
  induction reg with
  | nil => simp at hp
  | cons q rest ih =>
    have hnd' : (q.1 :: rest.map (fun x => x.1)).Nodup := by
      simpa only [List.map_cons] using hnd
    have hcons := List.nodup_cons.mp hnd'
    rcases List.mem_cons.mp hp with rfl | hp'
    · rw [dictGet_cons, if_pos rfl]
    · have hne : ¬ q.1 = p.1 := by
        intro hh
        refine hcons.1 ?_
        rw [hh]
        exact List.mem_map_of_mem _ hp'
      rw [dictGet_cons, if_neg hne]
      exact ih hcons.2 hp'

theorem mem_dictSet {reg : List (Nat × List Nat)} {k : Nat} {v : List Nat}
    {p : Nat × List Nat} (hp : p ∈ dictSet reg k v) :
    p = (k, v) ∨ (p ∈ reg ∧ ¬ p.1 = k) := by
  unfold dictSet at hp
  split at hp
  · obtain ⟨q, hq, heq⟩ := List.mem_map.mp hp
    by_cases hqk : q.1 = k
    · rw [if_pos hqk] at heq
      exact Or.inl heq.symm
    · rw [if_neg hqk] at heq
      exact Or.inr ⟨heq ▸ hq, heq ▸ hqk⟩
  · rename_i hnmem
    rcases List.mem_append.mp hp with h | h
    · refine Or.inr ⟨h, fun hk => hnmem ?_⟩
      rw [← hk]
      exact List.mem_map_of_mem _ h
    · exact Or.inl (List.mem_singleton.mp h)

theorem dictSet_keys (reg : List (Nat × List Nat)) (k : Nat) (v : List Nat) :
    (dictSet reg k v).map (fun p => p.1) =
      if k ∈ reg.map (fun p => p.1) then reg.map (fun p => p.1)
      else reg.map (fun p => p.1) ++ [k] := by
  unfold dictSet
  split
  · rw [List.map_map]
    refine List.map_congr_left fun p _ => ?_
    by_cases hp : p.1 = k
    · simp [hp]
    · simp [hp]
  · simp

theorem dictGet_map_subst (reg : List (Nat × List Nat)) (k : Nat)
    (v : List Nat) (k' : Nat) (h : ¬ k' = k) :
    dictGet (reg.map (fun p => if p.1 = k then (k, v) else p)) k' =
      dictGet reg k' := by
  induction reg with
  | nil => rfl
  | cons p rest ih =>
    simp only [List.map_cons]
    rw [dictGet_cons, dictGet_cons]
    by_cases hp : p.1 = k
    · rw [if_pos hp]
      have h1 : ¬ (k, v).1 = k' := fun hh => h hh.symm
      have h2 : ¬ p.1 = k' := by
        rw [hp]
        exact fun hh => h hh.symm
      rw [if_neg h1, if_neg h2]
      exact ih
    · rw [if_neg hp]
      by_cases hpk : p.1 = k'
      · rw [if_pos hpk, if_pos hpk]
      · rw [if_neg hpk, if_neg hpk]
        exact ih

theorem dictGet_dictSet_self (reg : List (Nat × List Nat)) (k : Nat)
    (v : List Nat) : dictGet (dictSet reg k v) k = some v := by
  unfold dictSet
  split
  · rename_i hmem
    induction reg with
    | nil => simp at hmem
    | cons p rest ih =>
      simp only [List.map_cons]
      by_cases hp : p.1 = k
      · rw [if_pos hp, dictGet_cons, if_pos rfl]
      · rw [if_neg hp, dictGet_cons, if_neg hp]
        refine ih ?_
        have hmem' : k ∈ p.1 :: rest.map (fun x => x.1) := by
          simpa only [List.map_cons] using hmem
        rcases List.mem_cons.mp hmem' with h | h
        · exact absurd h.symm hp
        · exact h
  · rename_i hnmem
    rw [dictGet_append_single, dictGet_eq_none_of_not_mem_keys hnmem]
    rw [if_pos rfl]

theorem dictGet_dictSet_ne (reg : List (Nat × List Nat)) (k : Nat)
    (v : List Nat) (k' : Nat) (h : ¬ k' = k) :
    dictGet (dictSet reg k v) k' = dictGet reg k' := by
  unfold dictSet
  split
  · exact dictGet_map_subst reg k v k' h
  · rw [dictGet_append_single]
    cases hdg : dictGet reg k' with
    | some ts => rfl
    | none => rw [if_neg (fun hh => h hh.symm)]

theorem mem_dictDel {reg : List (Nat × List Nat)} {k : Nat}
    {p : Nat × List Nat} : p ∈ dictDel reg k ↔ p ∈ reg ∧ ¬ p.1 = k := by
  simp [dictDel, List.mem_filter]

theorem dictGet_dictDel_self (reg : List (Nat × List Nat)) (k : Nat) :
    dictGet (dictDel reg k) k = none := by
  refine dictGet_eq_none_of_not_mem_keys fun hm => ?_
  obtain ⟨p, hp, hpk⟩ := List.mem_map.mp hm
  exact (mem_dictDel.mp hp).2 hpk

theorem dictGet_dictDel_ne (reg : List (Nat × List Nat)) (k k' : Nat)
    (h : ¬ k' = k) : dictGet (dictDel reg k) k' = dictGet reg k' := by
  induction reg with
  | nil => rfl
  | cons p rest ih =>
    by_cases hp : p.1 = k
    · have hfilter : dictDel (p :: rest) k = dictDel rest k := by
        simp only [dictDel, List.filter_cons, hp]
        simp
      rw [hfilter, dictGet_cons]
      have hpk : ¬ p.1 = k' := by
        rw [hp]
        exact fun hh => h hh.symm
      rw [if_neg hpk]
      exact ih
    · have hfilter : dictDel (p :: rest) k = p :: dictDel rest k := by
        simp only [dictDel, List.filter_cons]
        rw [if_pos (by simpa using hp)]
      rw [hfilter, dictGet_cons, dictGet_cons]
      by_cases hpk : p.1 = k'
      · rw [if_pos hpk, if_pos hpk]
      · rw [if_neg hpk, if_neg hpk]
        exact ih

theorem dictDel_map_subst (reg : List (Nat × List Nat)) (k : Nat)
    (v : List Nat) :
    dictDel (reg.map (fun p => if p.1 = k then (k, v) else p)) k =
      dictDel reg k := by
  induction reg with
  | nil => rfl
  | cons p rest ih =>
    simp only [List.map_cons]
    by_cases hp : p.1 = k
    · rw [if_pos hp]
      have h1 : dictDel ((k, v) ::
          (rest.map (fun p => if p.1 = k then (k, v) else p))) k =
          dictDel (rest.map (fun p => if p.1 = k then (k, v) else p)) k := by
        simp only [dictDel, List.filter_cons]
        simp
      rw [h1]
      have h2 : dictDel (p :: rest) k = dictDel rest k := by
        simp only [dictDel, List.filter_cons, hp]
        simp
      rw [h2]
      exact ih
    · rw [if_neg hp]
      have h1 : dictDel (p :: (rest.map (fun p => if p.1 = k then (k, v) else p))) k =
          p :: dictDel (rest.map (fun p => if p.1 = k then (k, v) else p)) k := by
        simp only [dictDel, List.filter_cons]
        rw [if_pos (by simpa using hp)]
      have h2 : dictDel (p :: rest) k = p :: dictDel rest k := by
        simp only [dictDel, List.filter_cons]
        rw [if_pos (by simpa using hp)]
      rw [h1, h2, ih]

theorem dictDel_dictSet (reg : List (Nat × List Nat)) (k : Nat)
    (v : List Nat) : dictDel (dictSet reg k v) k = dictDel reg k := by
  unfold dictSet
  split
  · exact dictDel_map_subst reg k v
  · simp [dictDel, List.filter_append]

theorem dictDel_keys_sublist (reg : List (Nat × List Nat)) (k : Nat) :
    List.Sublist ((dictDel reg k).map (fun p => p.1))
      (reg.map (fun p => p.1)) :=
  (List.filter_sublist _).map _

end DictLemmas

/-! ## Shape lemmas for the completion handler -/

section HandlerLemmas

variable {R : Type}

theorem forward_result_registry (cb : R → Option Nat) (s : RunState R)
    (r : R) : (forward_result cb s r).registry = s.registry := by
  unfold forward_result
  cases cb r <;> rfl

theorem forward_result_stopping (cb : R → Option Nat) (s : RunState R)
    (r : R) : (forward_result cb s r).stopping = s.stopping := by
  unfold forward_result
  cases cb r <;> rfl

theorem forward_result_handlerCalls (cb : R → Option Nat) (s : RunState R)
    (r : R) : (forward_result cb s r).handlerCalls = s.handlerCalls := by
  unfold forward_result
  cases cb r <;> rfl

theorem forward_result_callbackCalls (cb : R → Option Nat) (s : RunState R)
    (r : R) :
    (forward_result cb s r).callbackCalls = s.callbackCalls ++ [r] := by
  unfold forward_result
  cases cb r <;> rfl

theorem forward_result_errorLog (cb : R → Option Nat) (s : RunState R)
    (r : R) :
    (forward_result cb s r).errorLog = s.errorLog ++
      (match cb r with
        | some ex => [⟨resultHandlingMsg, ex⟩]
        | none => []) := by
  unfold forward_result
  cases cb r
  · simp
  · simp

theorem forward_foldl_registry (cb : R → Option Nat) (results : List R) :
    ∀ s : RunState R,
      (results.foldl (forward_result cb) s).registry = s.registry := by
  induction results with
  | nil => intro s; rfl
  | cons r rest ih =>
    intro s
    rw [List.foldl_cons, ih, forward_result_registry]

theorem forward_foldl_stopping (cb : R → Option Nat) (results : List R) :
    ∀ s : RunState R,
      (results.foldl (forward_result cb) s).stopping = s.stopping := by
  induction results with
  | nil => intro s; rfl
  | cons r rest ih =>
    intro s
    rw [List.foldl_cons, ih, forward_result_stopping]

theorem forward_foldl_handlerCalls (cb : R → Option Nat) (results : List R) :
    ∀ s : RunState R,
      (results.foldl (forward_result cb) s).handlerCalls = s.handlerCalls := by
  induction results with
  | nil => intro s; rfl
  | cons r rest ih =>
    intro s
    rw [List.foldl_cons, ih, forward_result_handlerCalls]

theorem forward_foldl_callbackCalls (cb : R → Option Nat) (results : List R) :
    ∀ s : RunState R,
      (results.foldl (forward_result cb) s).callbackCalls =
        s.callbackCalls ++ results := by
  induction results with
  | nil => intro s; simp
  | cons r rest ih =>
    intro s
    rw [List.foldl_cons, ih, forward_result_callbackCalls,
      List.append_assoc, List.singleton_append]

theorem forward_foldl_errorLog (cb : R → Option Nat) (results : List R) :
    ∀ s : RunState R,
      (results.foldl (forward_result cb) s).errorLog =
        s.errorLog ++ results.filterMap
          (fun r => (cb r).map (fun ex => LogRecord.mk resultHandlingMsg ex)) := by
  induction results with
  | nil => intro s; simp
  | cons r rest ih =>
    intro s
    rw [List.foldl_cons, ih, forward_result_errorLog]
    cases hcb : cb r
    · simp [List.filterMap_cons, hcb]
    · simp [List.filterMap_cons, hcb]

theorem finish_task_registry (cb : R → Option Nat) (st : RunState R)
    (e : Event R) :
    (finish_task cb st e).registry =
      match dictGet st.registry e.bear with
      | none => st.registry
      | some ts =>
        if e.task ∈ ts then
          if (ts.erase e.task).isEmpty then dictDel st.registry e.bear
          else dictSet st.registry e.bear (ts.erase e.task)
        else st.registry := by
  rcases e with ⟨b, t, o⟩
  cases hget : dictGet st.registry b with
  | none => cases o <;> simp [finish_task, hget]
  | some ts =>
    by_cases hmem : t ∈ ts
    · have hset := dictGet_dictSet_self st.registry b (ts.erase t)
      cases o with
      | error ex =>
        simp [finish_task, hget, hmem, cleanup_bear, hset, dictDel_dictSet]
      | ok results =>
        simp [finish_task, hget, hmem, cleanup_bear, hset, dictDel_dictSet,
          forward_foldl_registry]
    · cases o <;> simp [finish_task, hget, hmem]

theorem finish_task_stopping (cb : R → Option Nat) (st : RunState R)
    (e : Event R) :
    (finish_task cb st e).stopping =
      match dictGet st.registry e.bear with
      | none => st.stopping
      | some ts =>
        if e.task ∈ ts then
          st.stopping ||
            (if (ts.erase e.task).isEmpty then dictDel st.registry e.bear
              else dictSet st.registry e.bear (ts.erase e.task)).isEmpty
        else st.stopping := by
  rcases e with ⟨b, t, o⟩
  cases hget : dictGet st.registry b with
  | none => cases o <;> simp [finish_task, hget]
  | some ts =>
    by_cases hmem : t ∈ ts
    · have hset := dictGet_dictSet_self st.registry b (ts.erase t)
      cases o with
      | error ex =>
        simp [finish_task, hget, hmem, cleanup_bear, hset, dictDel_dictSet]
      | ok results =>
        simp [finish_task, hget, hmem, cleanup_bear, hset, dictDel_dictSet,
          forward_foldl_stopping]
    · cases o <;> simp [finish_task, hget, hmem]

theorem finish_task_handlerCalls (cb : R → Option Nat) (st : RunState R)
    (e : Event R) :
    (finish_task cb st e).handlerCalls =
      st.handlerCalls ++ [(e.bear, e.task)] := by
  rcases e with ⟨b, t, o⟩
  cases hget : dictGet st.registry b with
  | none => cases o <;> simp [finish_task, hget]
  | some ts =>
    by_cases hmem : t ∈ ts
    · have hset := dictGet_dictSet_self st.registry b (ts.erase t)
      cases o with
      | error ex =>
        simp [finish_task, hget, hmem, cleanup_bear, hset]
      | ok results =>
        simp [finish_task, hget, hmem, cleanup_bear, hset,
          forward_foldl_handlerCalls]
    · cases o <;> simp [finish_task, hget, hmem]

end HandlerLemmas

/-! ## The loop invariant and the drain lemma -/

section LoopLemmas

variable {R : Type}

theorem mem_range'_iff (s n m : Nat) :
    m ∈ List.range' s n ↔ s ≤ m ∧ m < s + n := by
  rw [List.mem_range']
  constructor
  · rintro ⟨i, hi, rfl⟩
    omega
  · rintro ⟨h1, h2⟩
    exact ⟨m - s, by omega, by omega⟩

theorem loopInv_step (cb : R → Option Nat) {st : RunState R} {e : Event R}
    {rest : List (Event R)} (inv : LoopInv st (e :: rest)) :
    LoopInv (finish_task cb st e) rest := by
  have hevnd : ¬ e.task ∈ rest.map (fun x => x.task) ∧
      (rest.map (fun x => x.task)).Nodup := by
    have := inv.evNodup
    simp only [List.map_cons] at this
    exact List.nodup_cons.mp this
  cases hget : dictGet st.registry e.bear with
  | none =>
    -- KeyError on the dict access: the handler aborts, nothing changes.
    have hreg : (finish_task cb st e).registry = st.registry := by
      simp only [finish_task_registry, hget]
    have hmemkey : ∀ p ∈ st.registry, ¬ p.1 = e.bear := by
      intro p hp hpk
      have := dictGet_of_mem_nodup inv.keysNodup hp
      rw [hpk, hget] at this
      exact Option.noConfusion this
    refine ⟨?_, ?_, ?_, ?_, ?_, hevnd.2, ?_⟩
    · rw [hreg]; exact inv.keysNodup
    · rw [hreg]; exact inv.entryNonempty
    · rw [hreg]; exact inv.entryNodup
    · rw [hreg]; exact inv.tasksDisj
    · rw [hreg]
      intro p hp t ht
      obtain ⟨o, ho⟩ := inv.hasEvent p hp t ht
      rcases List.mem_cons.mp ho with heq | ho'
      · exfalso
        have : e.bear = p.1 := by rw [← heq]
        exact hmemkey p hp this.symm
      · exact ⟨o, ho'⟩
    · rw [hreg]
      intro e' he' p hp ht
      exact inv.evBearMatch e' (List.mem_cons_of_mem _ he') p hp ht
  | some ts =>
    have hbts : (e.bear, ts) ∈ st.registry := dictGet_mem hget
    by_cases hmem : e.task ∈ ts
    · have hreg : (finish_task cb st e).registry =
          if (ts.erase e.task).isEmpty then dictDel st.registry e.bear
          else dictSet st.registry e.bear (ts.erase e.task) := by
        simp only [finish_task_registry, hget, if_pos hmem]
      -- the handler removed the task and ran cleanup
      have hsub : ∀ p ∈ (finish_task cb st e).registry,
          p = (e.bear, ts.erase e.task) ∨ (p ∈ st.registry ∧ ¬ p.1 = e.bear) := by
        intro p hp
        rw [hreg] at hp
        by_cases he : (ts.erase e.task).isEmpty
        · rw [if_pos he] at hp
          exact Or.inr (mem_dictDel.mp hp)
        · rw [if_neg he] at hp
          exact mem_dictSet hp
      have htsnd : ts.Nodup := inv.entryNodup _ hbts
      have herase_mem : ∀ t, t ∈ ts.erase e.task → ¬ t = e.task ∧ t ∈ ts := by
        intro t ht
        have := htsnd.mem_erase_iff.mp ht
        exact ⟨this.1, this.2⟩
      refine ⟨?_, ?_, ?_, ?_, ?_, hevnd.2, ?_⟩
      · -- keysNodup
        rw [hreg]
        by_cases he : (ts.erase e.task).isEmpty
        · rw [if_pos he]
          exact (dictDel_keys_sublist st.registry e.bear).nodup inv.keysNodup
        · rw [if_neg he]
          rw [dictSet_keys]
          rw [if_pos (List.mem_map_of_mem (fun p => p.1) hbts)]
          exact inv.keysNodup
      · -- entryNonempty
        intro p hp
        rcases hsub p hp with rfl | ⟨hold, _⟩
        · intro hnil
          rw [hreg] at hp
          have : (ts.erase e.task).isEmpty := by
            rw [List.isEmpty_iff]
            exact hnil
          rw [if_pos this] at hp
          exact (mem_dictDel.mp hp).2 rfl
        · exact inv.entryNonempty p hold
      · -- entryNodup
        intro p hp
        rcases hsub p hp with rfl | ⟨hold, _⟩
        · exact htsnd.erase _
        · exact inv.entryNodup p hold
      · -- tasksDisj
        intro p hp q hq hne t htp
        rcases hsub p hp with rfl | ⟨holdp, hkp⟩ <;>
          rcases hsub q hq with rfl | ⟨holdq, hkq⟩
        · exact absurd rfl hne
        · have htp' := (herase_mem t htp).2
          exact inv.tasksDisj _ hbts q holdq hne t htp'
        · intro htq
          have htq' := (herase_mem t htq).2
          exact inv.tasksDisj p holdp _ hbts hne t htp htq'
        · exact inv.tasksDisj p holdp q holdq hne t htp
      · -- hasEvent
        intro p hp t ht
        rcases hsub p hp with rfl | ⟨hold, hkp⟩
        · obtain ⟨hne, hts⟩ := herase_mem t ht
          obtain ⟨o, ho⟩ := inv.hasEvent _ hbts t hts
          rcases List.mem_cons.mp ho with heq | ho'
          · exfalso
            have : t = e.task := by rw [← heq]
            exact hne this
          · exact ⟨o, ho'⟩
        · obtain ⟨o, ho⟩ := inv.hasEvent p hold t ht
          rcases List.mem_cons.mp ho with heq | ho'
          · exfalso
            have : e.bear = p.1 := by rw [← heq]
            exact hkp this.symm
          · exact ⟨o, ho'⟩
      · -- evBearMatch
        intro e' he' p hp ht
        rcases hsub p hp with rfl | ⟨hold, _⟩
        · have ht' := (herase_mem e'.task ht).2
          show e'.bear = (e.bear, ts).1
          exact inv.evBearMatch e' (List.mem_cons_of_mem _ he') (e.bear, ts)
            hbts ht'
        · exact inv.evBearMatch e' (List.mem_cons_of_mem _ he') p hold ht
    · -- KeyError from set.remove: the handler aborts, nothing changes.
      have hreg : (finish_task cb st e).registry = st.registry := by
        simp only [finish_task_registry, hget, if_neg hmem]
      refine ⟨?_, ?_, ?_, ?_, ?_, hevnd.2, ?_⟩
      · rw [hreg]; exact inv.keysNodup
      · rw [hreg]; exact inv.entryNonempty
      · rw [hreg]; exact inv.entryNodup
      · rw [hreg]; exact inv.tasksDisj
      · rw [hreg]
        intro p hp t ht
        obtain ⟨o, ho⟩ := inv.hasEvent p hp t ht
        rcases List.mem_cons.mp ho with heq | ho'
        · exfalso
          have hbear : e.bear = p.1 := by rw [← heq]
          have hgp := dictGet_of_mem_nodup inv.keysNodup hp
          rw [← hbear, hget] at hgp
          have hts : ts = p.2 := by
            cases hgp
            rfl
          have htask : t = e.task := by rw [← heq]
          rw [← htask] at hmem
          rw [hts] at hmem
          exact hmem ht
        · exact ⟨o, ho'⟩
      · rw [hreg]
        intro e' he' p hp ht
        exact inv.evBearMatch e' (List.mem_cons_of_mem _ he') p hp ht

theorem run_forever_stopped (cb : R → Option Nat) (evs : List (Event R))
    (st : RunState R) (h : st.stopping = true) :
    run_forever cb evs st = some st := by
  cases evs <;> simp [run_forever, h]

theorem finish_task_stop_connection (cb : R → Option Nat) (st : RunState R)
    (e : Event R) (hstop : st.stopping = false)
    (hne : ¬ st.registry = []) :
    (finish_task cb st e).stopping =
      ((finish_task cb st e).registry).isEmpty := by
  have hemp : st.registry.isEmpty = false := by
    rw [List.isEmpty_eq_false]
    exact hne
  cases hget : dictGet st.registry e.bear with
  | none =>
    have h1 : (finish_task cb st e).stopping = st.stopping := by
      simp only [finish_task_stopping, hget]
    have h2 : (finish_task cb st e).registry = st.registry := by
      simp only [finish_task_registry, hget]
    rw [h1, h2, hstop, hemp]
  | some ts =>
    by_cases hmem : e.task ∈ ts
    · have h1 : (finish_task cb st e).stopping = (st.stopping ||
          (if (ts.erase e.task).isEmpty then dictDel st.registry e.bear
            else dictSet st.registry e.bear (ts.erase e.task)).isEmpty) := by
        simp only [finish_task_stopping, hget, if_pos hmem]
      have h2 : (finish_task cb st e).registry =
          if (ts.erase e.task).isEmpty then dictDel st.registry e.bear
          else dictSet st.registry e.bear (ts.erase e.task) := by
        simp only [finish_task_registry, hget, if_pos hmem]
      rw [h1, h2, hstop, Bool.false_or]
    · have h1 : (finish_task cb st e).stopping = st.stopping := by
        simp only [finish_task_stopping, hget, if_neg hmem]
      have h2 : (finish_task cb st e).registry = st.registry := by
        simp only [finish_task_registry, hget, if_neg hmem]
      rw [h1, h2, hstop, hemp]

theorem finish_task_stopping_mono (cb : R → Option Nat) (st : RunState R)
    (e : Event R) (h : st.stopping = true) :
    (finish_task cb st e).stopping = true := by
  cases hget : dictGet st.registry e.bear with
  | none =>
    have h1 : (finish_task cb st e).stopping = st.stopping := by
      simp only [finish_task_stopping, hget]
    rw [h1, h]
  | some ts =>
    by_cases hmem : e.task ∈ ts
    · have h1 : (finish_task cb st e).stopping = (st.stopping ||
          (if (ts.erase e.task).isEmpty then dictDel st.registry e.bear
            else dictSet st.registry e.bear (ts.erase e.task)).isEmpty) := by
        simp only [finish_task_stopping, hget, if_pos hmem]
      rw [h1, h, Bool.true_or]
    · have h1 : (finish_task cb st e).stopping = st.stopping := by
        simp only [finish_task_stopping, hget, if_neg hmem]
      rw [h1, h]

/-- Main liveness lemma of the loop: while the registry is nonempty and the
stop signal is not set, the invariant guarantees a pending completion whose
handling makes progress, and the loop finally stops exactly on the empty
registry. -/
theorem run_forever_drain (cb : R → Option Nat) :
    ∀ (evs : List (Event R)) (st : RunState R), LoopInv st evs →
      st.stopping = false → ¬ st.registry = [] →
      ∃ st', run_forever cb evs st = some st' ∧ st'.registry = [] ∧
        st'.stopping = true := by
  intro evs
  induction evs with
  | nil =>
    intro st inv hstop hne
    exfalso
    cases hreg : st.registry with
    | nil => exact hne hreg
    | cons p rest =>
      have hp : p ∈ st.registry := by
        rw [hreg]
        exact List.mem_cons_self _ _
      have hnonempty := inv.entryNonempty p hp
      cases hp2 : p.2 with
      | nil => exact hnonempty hp2
      | cons t ts =>
        have ht : t ∈ p.2 := by
          rw [hp2]
          exact List.mem_cons_self _ _
        obtain ⟨o, ho⟩ := inv.hasEvent p hp t ht
        simp at ho
  | cons e rest ih =>
    intro st inv hstop hne
    have hstep : run_forever cb (e :: rest) st =
        run_forever cb rest (finish_task cb st e) := by
      simp [run_forever, hstop]
    rw [hstep]
    have inv' := loopInv_step cb inv
    by_cases hreg' : (finish_task cb st e).registry = []
    · have hstop' : (finish_task cb st e).stopping = true := by
        rw [finish_task_stop_connection cb st e hstop hne, List.isEmpty_iff]
        exact hreg'
      exact ⟨_, run_forever_stopped cb rest _ hstop', hreg', hstop'⟩
    · have hstop' : (finish_task cb st e).stopping = false := by
        rw [finish_task_stop_connection cb st e hstop hne,
          List.isEmpty_eq_false]
        exact hreg'
      exact ih _ inv' hstop' hreg'

end LoopLemmas

/-! ## Scheduling lemmas -/

section SchedLemmas

variable {R : Type}

theorem totalTasks_nil : totalTasks ([] : List (Nat × List (TaskOutcome R))) = 0 := rfl

theorem totalTasks_cons (b : Nat × List (TaskOutcome R))
    (rest : List (Nat × List (TaskOutcome R))) :
    totalTasks (b :: rest) = b.2.length + totalTasks rest := by
  simp [totalTasks]

theorem exists_zip_right {A B : Type} :
    ∀ (l₁ : List A) (l₂ : List B), l₁.length = l₂.length →
      ∀ a ∈ l₁, ∃ b, (a, b) ∈ l₁.zip l₂ := by
  intro l₁
  induction l₁ with
  | nil =>
    intro l₂ _ a ha
    simp at ha
  | cons x t ih =>
    intro l₂ hlen a ha
    cases l₂ with
    | nil => simp at hlen
    | cons y t2 =>
      rcases List.mem_cons.mp ha with rfl | ha'
      · exact ⟨y, List.mem_cons_self _ _⟩
      · obtain ⟨b, hb⟩ := ih t2 (by simpa using hlen) a ha'
        exact ⟨b, List.mem_cons_of_mem _ hb⟩

theorem dictSet_ne_nil (reg : List (Nat × List Nat)) (k : Nat)
    (v : List Nat) : ¬ dictSet reg k v = [] := by
  unfold dictSet
  split
  · rename_i hmem
    intro h
    have hreg : reg = [] := by
      cases reg with
      | nil => rfl
      | cons p rest => simp at h
    rw [hreg] at hmem
    simp at hmem
  · intro h
    cases reg <;> simp at h

theorem cleanup_bear_handlerCalls (st : RunState R) (bear : Nat) :
    (cleanup_bear st bear).handlerCalls = st.handlerCalls := by
  unfold cleanup_bear
  cases dictGet st.registry bear <;> rfl

theorem cleanup_bear_callbackCalls (st : RunState R) (bear : Nat) :
    (cleanup_bear st bear).callbackCalls = st.callbackCalls := by
  unfold cleanup_bear
  cases dictGet st.registry bear <;> rfl

theorem cleanup_bear_errorLog (st : RunState R) (bear : Nat) :
    (cleanup_bear st bear).errorLog = st.errorLog := by
  unfold cleanup_bear
  cases dictGet st.registry bear <;> rfl

theorem schedule_bears_props :
    ∀ (bears : List (Nat × List (TaskOutcome R))) (st : RunState R) (n : Nat),
      (st.registry.map (fun p => p.1)).Nodup →
      (∀ p ∈ st.registry, ¬ p.2 = []) →
      (∀ p ∈ st.registry, p.2.Nodup) →
      (∀ p ∈ st.registry, ∀ q ∈ st.registry, ¬ p.1 = q.1 →
        ∀ t ∈ p.2, ¬ t ∈ q.2) →
      (∀ p ∈ st.registry, ∀ t ∈ p.2, t < n) →
      SchedProps st n bears (schedule_bears st n bears) := by
  intro bears
  induction bears with
  | nil =>
    intro st n hkn hne hnd hdisj hbound
    refine ⟨rfl, by simp [schedule_bears, totalTasks], hkn, hne, hnd, hdisj,
      ?_, ?_, ?_, rfl, rfl, rfl⟩
    · exact hbound
    · intro p hp
      exact Or.inl hp
    · intro _
      exact Or.inr rfl
  | cons b rest ih =>
    intro st n hkn hne hnd hdisj hbound
    obtain ⟨bear, outs⟩ := b
    by_cases hlen : outs.length = 0
    · -- zero-task bear: scheduled, then immediately cleaned up
      have hids : List.range' n outs.length = [] := by
        rw [List.range'_eq_nil]
        exact hlen
      have hempty : (List.range' n outs.length).isEmpty = true := by
        rw [List.isEmpty_iff]
        exact hids
      set regS := dictSet st.registry bear (List.range' n outs.length)
        with hregSdef
      have hreg1 : dictGet regS bear = some [] := by
        rw [hregSdef, hids]
        exact dictGet_dictSet_self _ _ _
      set stopS := st.stopping || (dictDel st.registry bear).isEmpty
        with hstopSdef
      -- the state passed to the recursive call
      have hst2 : (if (List.range' n outs.length).isEmpty then
            cleanup_bear { st with registry := regS } bear
          else { st with registry := regS }) =
          { st with registry := dictDel st.registry bear, stopping := stopS } := by
        rw [if_pos hempty]
        unfold cleanup_bear
        simp only [hreg1, List.isEmpty_nil, if_true]
        rw [hregSdef, dictDel_dictSet]
      set st2 : RunState R :=
        { st with registry := dictDel st.registry bear, stopping := stopS }
        with hst2def
      have hmem2 : ∀ p ∈ st2.registry, p ∈ st.registry ∧ ¬ p.1 = bear := by
        intro p hp
        exact mem_dictDel.mp hp
      have ihp := ih st2 (n + outs.length)
        ((dictDel_keys_sublist st.registry bear).nodup hkn)
        (fun p hp => hne p (hmem2 p hp).1)
        (fun p hp => hnd p (hmem2 p hp).1)
        (fun p hp q hq hneq => hdisj p (hmem2 p hp).1 q (hmem2 q hq).1 hneq)
        (fun p hp t ht => Nat.lt_of_lt_of_le (hbound p (hmem2 p hp).1 t ht)
          (Nat.le_add_right n outs.length))
      -- unfold one step of schedule_bears
      have hunf : schedule_bears st n ((bear, outs) :: rest) =
          ((schedule_bears st2 (n + outs.length) rest).1,
            ((List.range' n outs.length).zip outs).map
              (fun p => ⟨bear, p.1, p.2⟩) ++
              (schedule_bears st2 (n + outs.length) rest).2.1,
            (schedule_bears st2 (n + outs.length) rest).2.2) := by
        conv_lhs => rw [schedule_bears]
        rw [hst2]
      rw [hunf]
      have hevnil : ((List.range' n outs.length).zip outs).map
          (fun p => (⟨bear, p.1, p.2⟩ : Event R)) = [] := by
        rw [hids]
        rfl
      rw [hevnil]
      refine ⟨?_, ?_, ihp.keysNodup, ihp.entryNonempty, ihp.entryNodup,
        ihp.tasksDisj, ihp.bound, ?_, ?_, ?_, ?_, ?_⟩
      · rw [List.nil_append, ihp.evTasks, totalTasks_cons]
        simp only [hlen, Nat.add_zero, Nat.zero_add]
      · rw [ihp.nextId, totalTasks_cons]
        show n + outs.length + totalTasks rest =
          n + (outs.length + totalTasks rest)
        omega
      · intro p hp
        rcases ihp.covered p hp with hold | hcov
        · exact Or.inl (hmem2 p hold).1
        · exact Or.inr (fun t ht => (hcov t ht).imp
            (fun o ho => List.mem_append_right _ ho))
      · intro hnil
        rcases ihp.stopEmpty hnil with hstop | hrest
        · exact Or.inl hstop
        · -- the tail is empty: the recursion returned st2 itself
          subst hrest
          left
          have : (schedule_bears st2 (n + outs.length)
              ([] : List (Nat × List (TaskOutcome R)))).1 = st2 := rfl
          rw [this] at hnil
          have hdel : (dictDel st.registry bear).isEmpty = true := by
            rw [List.isEmpty_iff]
            exact hnil
          rw [this]
          show stopS = true
          rw [hstopSdef, hdel, Bool.or_true]
      · rw [ihp.hCalls]
      · rw [ihp.cCalls]
      · rw [ihp.eLog]
    · -- at least one task: the bear stays registered with its fresh ids
      have hids_ne : ¬ List.range' n outs.length = [] := by
        rw [List.range'_eq_nil]
        exact hlen
      have hempty : (List.range' n outs.length).isEmpty = false := by
        rw [List.isEmpty_eq_false]
        exact hids_ne
      set ids := List.range' n outs.length with hidsdef
      set st2 : RunState R := { st with registry := dictSet st.registry bear ids }
        with hst2def
      have hmem2 : ∀ p ∈ st2.registry,
          p = (bear, ids) ∨ (p ∈ st.registry ∧ ¬ p.1 = bear) := by
        intro p hp
        exact mem_dictSet hp
      have hidsub : ∀ t ∈ ids, n ≤ t ∧ t < n + outs.length := by
        intro t ht
        exact (mem_range'_iff n outs.length t).mp ht
      have hkn2 : (st2.registry.map (fun p => p.1)).Nodup := by
        show ((dictSet st.registry bear ids).map (fun p => p.1)).Nodup
        rw [dictSet_keys]
        by_cases hb : bear ∈ st.registry.map (fun p => p.1)
        · rw [if_pos hb]
          exact hkn
        · rw [if_neg hb]
          simp [List.nodup_append, hkn, hb]
      have hne2 : ∀ p ∈ st2.registry, ¬ p.2 = [] := by
        intro p hp
        rcases hmem2 p hp with rfl | ⟨hold, _⟩
        · exact hids_ne
        · exact hne p hold
      have hnd2 : ∀ p ∈ st2.registry, p.2.Nodup := by
        intro p hp
        rcases hmem2 p hp with rfl | ⟨hold, _⟩
        · exact List.nodup_range' n outs.length
        · exact hnd p hold
      have hdisj2 : ∀ p ∈ st2.registry, ∀ q ∈ st2.registry, ¬ p.1 = q.1 →
          ∀ t ∈ p.2, ¬ t ∈ q.2 := by
        intro p hp q hq hneq t htp
        rcases hmem2 p hp with rfl | ⟨holdp, hkp⟩ <;>
          rcases hmem2 q hq with rfl | ⟨holdq, hkq⟩
        · exact absurd rfl hneq
        · intro htq
          exact Nat.lt_irrefl t (Nat.lt_of_lt_of_le
            (hbound q holdq t htq) (hidsub t htp).1)
        · intro htq
          exact Nat.lt_irrefl t (Nat.lt_of_lt_of_le
            (hbound p holdp t htp) (hidsub t htq).1)
        · exact hdisj p holdp q holdq hneq t htp
      have hbound2 : ∀ p ∈ st2.registry, ∀ t ∈ p.2, t < n + outs.length := by
        intro p hp t ht
        rcases hmem2 p hp with rfl | ⟨hold, _⟩
        · exact (hidsub t ht).2
        · exact Nat.lt_of_lt_of_le (hbound p hold t ht)
            (Nat.le_add_right n outs.length)
      have ihp := ih st2 (n + outs.length) hkn2 hne2 hnd2 hdisj2 hbound2
      have hunf : schedule_bears st n ((bear, outs) :: rest) =
          ((schedule_bears st2 (n + outs.length) rest).1,
            (ids.zip outs).map (fun p => ⟨bear, p.1, p.2⟩) ++
              (schedule_bears st2 (n + outs.length) rest).2.1,
            (schedule_bears st2 (n + outs.length) rest).2.2) := by
        conv_lhs => rw [schedule_bears]
        rw [if_neg (by rw [hempty]; exact Bool.false_ne_true)]
      rw [hunf]
      have hlenids : ids.length = outs.length := List.length_range' _ _ _
      have hmaptask : ((ids.zip outs).map
          (fun p => (⟨bear, p.1, p.2⟩ : Event R))).map (fun e => e.task) =
          ids := by
        rw [List.map_map]
        have : ((fun e => Event.task e) ∘ fun p : Nat × TaskOutcome R =>
            (⟨bear, p.1, p.2⟩ : Event R)) = fun p => p.1 := rfl
        rw [this]
        exact List.map_fst_zip _ _ (le_of_eq hlenids)
      refine ⟨?_, ?_, ihp.keysNodup, ihp.entryNonempty, ihp.entryNodup,
        ihp.tasksDisj, ihp.bound, ?_, ?_, ?_, ?_, ?_⟩
      · rw [List.map_append, hmaptask, ihp.evTasks, totalTasks_cons]
        rw [hidsdef, List.range'_append_1]
        rw [Nat.add_comm (outs.length) (totalTasks rest)]
      · rw [ihp.nextId, totalTasks_cons]
        show n + outs.length + totalTasks rest =
          n + (outs.length + totalTasks rest)
        omega
      · intro p hp
        rcases ihp.covered p hp with hold2 | hcov
        · rcases hmem2 p hold2 with rfl | ⟨hold, _⟩
          · refine Or.inr fun t ht => ?_
            obtain ⟨o, ho⟩ := exists_zip_right ids outs hlenids t ht
            refine ⟨o, List.mem_append_left _ ?_⟩
            exact List.mem_map_of_mem _ ho
          · exact Or.inl hold
        · exact Or.inr (fun t ht => (hcov t ht).imp
            (fun o ho => List.mem_append_right _ ho))
      · intro hnil
        rcases ihp.stopEmpty hnil with hstop | hrest
        · exact Or.inl hstop
        · exfalso
          subst hrest
          have : (schedule_bears st2 (n + outs.length)
              ([] : List (Nat × List (TaskOutcome R)))).1 = st2 := rfl
          rw [this] at hnil
          exact dictSet_ne_nil st.registry bear ids hnil
      · rw [ihp.hCalls]
      · rw [ihp.cCalls]
      · rw [ihp.eLog]

end SchedLemmas

/-! ## Top-level facts about `run` -/

section RunLemmas

variable {R : Type}

theorem runSched_props (bears : List (Nat × List (TaskOutcome R))) :
    SchedProps (initState R) 0 bears (runSched bears) := by
  refine schedule_bears_props bears (initState R) 0 ?_ ?_ ?_ ?_ ?_ <;>
    simp [initState]

theorem runSched_loopInv (bears : List (Nat × List (TaskOutcome R))) :
    LoopInv (runSched bears).1 (runSched bears).2.1 := by
  have sp := runSched_props bears
  have hcov : ∀ p ∈ (runSched bears).1.registry, ∀ t ∈ p.2,
      ∃ o, (⟨p.1, t, o⟩ : Event R) ∈ (runSched bears).2.1 := by
    intro p hp t ht
    rcases sp.covered p hp with hinit | hcov
    · simp [initState] at hinit
    · exact hcov t ht
  have hevnd : ((runSched bears).2.1.map (fun e => e.task)).Nodup := by
    rw [sp.evTasks]
    exact List.nodup_range' 0 (totalTasks bears)
  refine ⟨sp.keysNodup, sp.entryNonempty, sp.entryNodup, sp.tasksDisj,
    hcov, hevnd, ?_⟩
  intro e he p hp ht
  obtain ⟨o, ho⟩ := hcov p hp e.task ht
  have heq : e = ⟨p.1, e.task, o⟩ :=
    List.inj_on_of_nodup_map hevnd he ho rfl
  exact congrArg Event.bear heq

theorem loopInv_perm {st : RunState R} {evs evs' : List (Event R)}
    (h : LoopInv st evs) (hp : evs.Perm evs') : LoopInv st evs' := by
  refine ⟨h.keysNodup, h.entryNonempty, h.entryNodup, h.tasksDisj, ?_, ?_, ?_⟩
  · intro p hpp t ht
    obtain ⟨o, ho⟩ := h.hasEvent p hpp t ht
    exact ⟨o, hp.mem_iff.mp ho⟩
  · exact ((hp.map (fun e => e.task)).nodup_iff).mp h.evNodup
  · intro e he p hpp ht
    exact h.evBearMatch e (hp.mem_iff.mpr he) p hpp ht

theorem perm_pair {A : Type} {a b : A} {l : List A} (h : l.Perm [a, b]) :
    l = [a, b] ∨ l = [b, a] := by
  have hlen : l.length = 2 := by simpa using h.length_eq
  match l, hlen with
  | [x, y], _ =>
    have hx : x ∈ [a, b] := h.mem_iff.mp (List.mem_cons_self _ _)
    rcases List.mem_cons.mp hx with rfl | hx'
    · left
      have h2 : [y].Perm [b] := h.cons_inv
      rw [List.perm_singleton.mp h2]
    · have hxb : x = b := List.mem_singleton.mp hx'
      right
      have hswap : (x :: [y] : List A).Perm (x :: [a]) := by
        refine h.trans ?_
        rw [hxb]
        exact List.Perm.swap b a []
      have h2 : [y].Perm [a] := hswap.cons_inv
      rw [List.perm_singleton.mp h2, hxb]

theorem forward_foldl_eq (cb : R → Option Nat) (rs : List R) (s : RunState R) :
    rs.foldl (forward_result cb) s =
      { s with
        callbackCalls := s.callbackCalls ++ rs
        errorLog := s.errorLog ++ rs.filterMap
          (fun r => (cb r).map (fun e2 => LogRecord.mk resultHandlingMsg e2)) } := by
  have heta : rs.foldl (forward_result cb) s =
      ⟨(rs.foldl (forward_result cb) s).registry,
        (rs.foldl (forward_result cb) s).stopping,
        (rs.foldl (forward_result cb) s).handlerCalls,
        (rs.foldl (forward_result cb) s).errorLog,
        (rs.foldl (forward_result cb) s).callbackCalls⟩ := rfl
  rw [heta, forward_foldl_registry, forward_foldl_stopping,
    forward_foldl_handlerCalls, forward_foldl_errorLog,
    forward_foldl_callbackCalls]

theorem run_forever_cons_not_stopped (cb : R → Option Nat) (e : Event R)
    (rest : List (Event R)) (st : RunState R) (h : st.stopping = false) :
    run_forever cb (e :: rest) st =
      run_forever cb rest (finish_task cb st e) := by
  simp [run_forever, h]

theorem run_forever_nil_stopped (cb : R → Option Nat) (st : RunState R)
    (h : st.stopping = true) : run_forever cb [] st = some st := by
  simp [run_forever, h]

end RunLemmas

/-! ## Per-bear task-id bookkeeping for the registry characterisation -/

section IdsLemmas

variable {R : Type}

theorem idsOfAux_nodup (n : Nat) (bears : List (Nat × List (TaskOutcome R)))
    (k : Nat) : (idsOfAux R n bears k).Nodup := by
  induction bears generalizing n with
  | nil => exact List.nodup_nil
  | cons b rest ih =>
    obtain ⟨k', outs⟩ := b
    rw [idsOfAux]
    by_cases h : k' = k
    · rw [if_pos h]
      exact List.nodup_range' n outs.length
    · rw [if_neg h]
      exact ih (n + outs.length)

theorem idsOfAux_ge (n : Nat) (bears : List (Nat × List (TaskOutcome R)))
    (k t : Nat) (ht : t ∈ idsOfAux R n bears k) : n ≤ t := by
  induction bears generalizing n with
  | nil => simp [idsOfAux] at ht
  | cons b rest ih =>
    obtain ⟨k', outs⟩ := b
    rw [idsOfAux] at ht
    by_cases h : k' = k
    · rw [if_pos h] at ht
      exact ((mem_range'_iff _ _ _).mp ht).1
    · rw [if_neg h] at ht
      exact Nat.le_trans (Nat.le_add_right n outs.length)
        (ih (n + outs.length) ht)

theorem idsOfAux_unique (n : Nat) (bears : List (Nat × List (TaskOutcome R)))
    (k k' t : Nat) (h1 : t ∈ idsOfAux R n bears k)
    (h2 : t ∈ idsOfAux R n bears k') : k = k' := by
  induction bears generalizing n with
  | nil => simp [idsOfAux] at h1
  | cons b rest ih =>
    obtain ⟨kb, outs⟩ := b
    rw [idsOfAux] at h1 h2
    by_cases hk : kb = k <;> by_cases hk' : kb = k'
    · rw [← hk, hk']
    · rw [if_pos hk] at h1
      rw [if_neg hk'] at h2
      have hlt := ((mem_range'_iff _ _ _).mp h1).2
      have hge := idsOfAux_ge (n + outs.length) rest k' t h2
      omega
    · rw [if_neg hk] at h1
      rw [if_pos hk'] at h2
      have hlt := ((mem_range'_iff _ _ _).mp h2).2
      have hge := idsOfAux_ge (n + outs.length) rest k t h1
      omega
    · rw [if_neg hk] at h1
      rw [if_neg hk'] at h2
      exact ih (n + outs.length) h1 h2

theorem idsOfAux_of_not_mem (n : Nat)
    (bears : List (Nat × List (TaskOutcome R))) (k : Nat)
    (h : ¬ k ∈ bears.map (fun b => b.1)) : idsOfAux R n bears k = [] := by
  induction bears generalizing n with
  | nil => rfl
  | cons b rest ih =>
    obtain ⟨kb, outs⟩ := b
    rw [idsOfAux]
    have hk : ¬ kb = k := by
      intro hh
      exact h (by simp [hh])
    rw [if_neg hk]
    refine ih (n + outs.length) fun hm => h ?_
    simp only [List.map_cons, List.mem_cons]
    exact Or.inr hm

theorem idsOfAux_length (n : Nat) (bears : List (Nat × List (TaskOutcome R)))
    (k : Nat) (outs : List (TaskOutcome R)) (hmem : (k, outs) ∈ bears)
    (hnd : (bears.map (fun b => b.1)).Nodup) :
    (idsOfAux R n bears k).length = outs.length := by
  induction bears generalizing n with
  | nil => simp at hmem
  | cons b rest ih =>
    obtain ⟨kb, outsb⟩ := b
    have hnd' : (rest.map (fun b => b.1)).Nodup ∧
        ¬ kb ∈ rest.map (fun b => b.1) := by
      have := List.nodup_cons.mp (by simpa only [List.map_cons] using hnd)
      exact ⟨this.2, this.1⟩
    rw [idsOfAux]
    rcases List.mem_cons.mp hmem with heq | hmem'
    · have hk : kb = k := (Prod.ext_iff.mp heq.symm).1
      have ho : outsb = outs := (Prod.ext_iff.mp heq.symm).2
      rw [if_pos hk, ho]
      exact List.length_range' _ _ _
    · have hk : ¬ kb = k := by
        intro hh
        refine hnd'.2 ?_
        rw [hh]
        exact List.mem_map_of_mem _ hmem'
      rw [if_neg hk]
      exact ih (n + outsb.length) hmem' hnd'.1

/-- Every scheduled completion event carries the key of a bear occurrence
of the input. -/
theorem event_bear_mem_keys :
    ∀ (bears : List (Nat × List (TaskOutcome R))) (st : RunState R) (n : Nat),
      ∀ e ∈ (schedule_bears st n bears).2.1,
        e.bear ∈ bears.map (fun b => b.1) := by
  intro bears
  induction bears with
  | nil =>
    intro st n e he
    simp [schedule_bears] at he
  | cons b rest ih =>
    intro st n e he
    obtain ⟨kb, outs⟩ := b
    rw [schedule_bears] at he
    simp only [List.map_cons, List.mem_cons]
    rcases List.mem_append.mp he with hev | hrec
    · obtain ⟨pr, _, heq⟩ := List.mem_map.mp hev
      left
      rw [← heq]
    · exact Or.inr (ih _ (n + outs.length) e hrec)

/-- With pairwise-distinct bear keys, every scheduled completion event's
future id belongs to the ids assigned to its bear. -/
theorem event_task_mem_idsOfAux :
    ∀ (bears : List (Nat × List (TaskOutcome R))) (st : RunState R) (n : Nat),
      (bears.map (fun b => b.1)).Nodup →
      ∀ e ∈ (schedule_bears st n bears).2.1,
        e.task ∈ idsOfAux R n bears e.bear := by
  intro bears
  induction bears with
  | nil =>
    intro st n _ e he
    simp [schedule_bears] at he
  | cons b rest ih =>
    intro st n hnd e he
    obtain ⟨kb, outs⟩ := b
    have hnd' : (rest.map (fun b => b.1)).Nodup ∧
        ¬ kb ∈ rest.map (fun b => b.1) := by
      have := List.nodup_cons.mp (by simpa only [List.map_cons] using hnd)
      exact ⟨this.2, this.1⟩
    rw [schedule_bears] at he
    rcases List.mem_append.mp he with hev | hrec
    · obtain ⟨pr, hpr, heq⟩ := List.mem_map.mp hev
      rw [← heq]
      show pr.1 ∈ idsOfAux R n ((kb, outs) :: rest) kb
      rw [idsOfAux, if_pos rfl]
      exact (List.of_mem_zip hpr).1
    · have hbear := event_bear_mem_keys rest _ (n + outs.length) e hrec
      have hk : ¬ kb = e.bear := by
        intro hh
        exact hnd'.2 (hh ▸ hbear)
      rw [idsOfAux, if_neg hk]
      exact ih _ (n + outs.length) hnd'.1 e hrec

/-- Conversely, every assigned id has a scheduled completion event bound to
its bear. -/
theorem idsOfAux_has_event :
    ∀ (bears : List (Nat × List (TaskOutcome R))) (st : RunState R) (n : Nat)
      (k t : Nat), t ∈ idsOfAux R n bears k →
      ∃ o, (⟨k, t, o⟩ : Event R) ∈ (schedule_bears st n bears).2.1 := by
  intro bears
  induction bears with
  | nil =>
    intro st n k t ht
    simp [idsOfAux] at ht
  | cons b rest ih =>
    intro st n k t ht
    obtain ⟨kb, outs⟩ := b
    rw [idsOfAux] at ht
    rw [schedule_bears]
    by_cases hk : kb = k
    · rw [if_pos hk] at ht
      obtain ⟨o, ho⟩ := exists_zip_right (List.range' n outs.length) outs
        (List.length_range' _ _ _) t ht
      refine ⟨o, List.mem_append_left _ ?_⟩
      rw [hk]
      exact List.mem_map_of_mem _ ho
    · rw [if_neg hk] at ht
      obtain ⟨o, ho⟩ := ih _ (n + outs.length) k t ht
      exact ⟨o, List.mem_append_right _ ho⟩

end IdsLemmas

/-! ## Registry characterisation along the run -/

section CharLemmas

variable {R : Type}

theorem idsOf_of_not_mem {bears : List (Nat × List (TaskOutcome R))}
    {k : Nat} (h : ¬ k ∈ bears.map (fun b => b.1)) : idsOf bears k = [] :=
  idsOfAux_of_not_mem 0 bears k h

theorem idsOf_nodup (bears : List (Nat × List (TaskOutcome R))) (k : Nat) :
    (idsOf bears k).Nodup :=
  idsOfAux_nodup 0 bears k

theorem idsOf_unique {bears : List (Nat × List (TaskOutcome R))}
    {k k' t : Nat} (h1 : t ∈ idsOf bears k) (h2 : t ∈ idsOf bears k') :
    k = k' :=
  idsOfAux_unique 0 bears k k' t h1 h2

theorem event_task_mem_idsOf {bears : List (Nat × List (TaskOutcome R))}
    (hnd : (bears.map (fun b => b.1)).Nodup) {e : Event R}
    (he : e ∈ (runSched bears).2.1) : e.task ∈ idsOf bears e.bear :=
  event_task_mem_idsOfAux bears (initState R) 0 hnd e he

theorem idsOf_has_event {bears : List (Nat × List (TaskOutcome R))}
    {k t : Nat} (ht : t ∈ idsOf bears k) :
    ∃ o, (⟨k, t, o⟩ : Event R) ∈ (runSched bears).2.1 :=
  idsOfAux_has_event bears (initState R) 0 k t ht

/-- Effect of one iteration of the scheduling loop on dict lookups. -/
theorem schedule_step_dictGet (st : RunState R) (n kb : Nat)
    (outs : List (TaskOutcome R)) (k : Nat) :
    dictGet ((if (List.range' n outs.length).isEmpty then
        cleanup_bear { st with
          registry := dictSet st.registry kb (List.range' n outs.length) } kb
      else { st with
        registry := dictSet st.registry kb
          (List.range' n outs.length) }).registry) k =
    (if kb = k then
      (if (List.range' n outs.length).isEmpty then none
       else some (List.range' n outs.length))
     else dictGet st.registry k) := by
  by_cases hlen : (List.range' n outs.length).isEmpty
  · have hids : List.range' n outs.length = [] := List.isEmpty_iff.mp hlen
    have hget : dictGet (dictSet st.registry kb (List.range' n outs.length))
        kb = some [] := by
      rw [hids]
      exact dictGet_dictSet_self _ _ _
    have hclean : (cleanup_bear { st with
        registry := dictSet st.registry kb (List.range' n outs.length) }
        kb).registry = dictDel st.registry kb := by
      simp only [cleanup_bear, hget, List.isEmpty_nil, if_true]
      exact dictDel_dictSet _ _ _
    rw [if_pos hlen, hclean]
    by_cases hk : kb = k
    · rw [if_pos hk, if_pos hlen, ← hk]
      exact dictGet_dictDel_self _ _
    · rw [if_neg hk]
      exact dictGet_dictDel_ne _ _ _ (fun h => hk h.symm)
  · rw [if_neg hlen]
    by_cases hk : kb = k
    · rw [if_pos hk, if_neg hlen, ← hk]
      exact dictGet_dictSet_self _ _ _
    · rw [if_neg hk]
      exact dictGet_dictSet_ne _ _ _ _ (fun h => hk h.symm)

/-- Registry lookups after the scheduling phase: a bear key maps exactly to
its assigned ids when any were assigned (zero-task bears are deleted during
scheduling), and unknown keys stay untouched. -/
theorem schedule_registry_char :
    ∀ (bears : List (Nat × List (TaskOutcome R))) (st : RunState R) (n : Nat),
      (bears.map (fun b => b.1)).Nodup →
      (∀ k, k ∈ bears.map (fun b => b.1) → dictGet st.registry k = none) →
      ∀ k, dictGet (schedule_bears st n bears).1.registry k =
        (if k ∈ bears.map (fun b => b.1) then
          (if (idsOfAux R n bears k).isEmpty then none
           else some (idsOfAux R n bears k))
         else dictGet st.registry k) := by
  intro bears
  induction bears with
  | nil =>
    intro st n _ _ k
    rw [schedule_bears]
    simp
  | cons b rest ih =>
    intro st n hnd hfresh k
    obtain ⟨kb, outs⟩ := b
    have hnd' : (rest.map (fun b => b.1)).Nodup ∧
        ¬ kb ∈ rest.map (fun b => b.1) := by
      have := List.nodup_cons.mp (by simpa only [List.map_cons] using hnd)
      exact ⟨this.2, this.1⟩
    rw [schedule_bears]
    have hstep := schedule_step_dictGet st n kb outs
    have hfresh2 : ∀ k', k' ∈ rest.map (fun b => b.1) →
        dictGet ((if (List.range' n outs.length).isEmpty then
          cleanup_bear { st with
            registry := dictSet st.registry kb
              (List.range' n outs.length) } kb
        else { st with
          registry := dictSet st.registry kb
            (List.range' n outs.length) }).registry) k' = none := by
      intro k' hk'
      rw [hstep k']
      have hne : ¬ kb = k' := by
        intro hh
        exact hnd'.2 (hh ▸ hk')
      rw [if_neg hne]
      refine hfresh k' ?_
      simp only [List.map_cons, List.mem_cons]
      exact Or.inr hk'
    have hrec := ih _ (n + outs.length) hnd'.1 hfresh2
    rw [hrec k]
    by_cases hkb : kb = k
    · have hknotrest : ¬ k ∈ rest.map (fun b => b.1) := by
        rw [← hkb]
        exact hnd'.2
      rw [if_neg hknotrest, hstep k, if_pos hkb]
      have hkmem : k ∈ ((kb, outs) :: rest).map (fun b => b.1) := by
        simp only [List.map_cons, List.mem_cons]
        exact Or.inl hkb.symm
      rw [if_pos hkmem]
      show _ = if (idsOfAux R n ((kb, outs) :: rest) k).isEmpty then none
        else some (idsOfAux R n ((kb, outs) :: rest) k)
      rw [idsOfAux, if_pos hkb]
    · by_cases hkrest : k ∈ rest.map (fun b => b.1)
      · rw [if_pos hkrest]
        have hkmem : k ∈ ((kb, outs) :: rest).map (fun b => b.1) := by
          simp only [List.map_cons, List.mem_cons]
          exact Or.inr hkrest
        rw [if_pos hkmem]
        show (if (idsOfAux R (n + outs.length) rest k).isEmpty then none
            else some (idsOfAux R (n + outs.length) rest k)) =
          if (idsOfAux R n ((kb, outs) :: rest) k).isEmpty then none
            else some (idsOfAux R n ((kb, outs) :: rest) k)
        rw [idsOfAux, if_neg hkb]
      · rw [if_neg hkrest, hstep k, if_neg hkb]
        have hkmem : ¬ k ∈ ((kb, outs) :: rest).map (fun b => b.1) := by
          simp only [List.map_cons, List.mem_cons]
          rintro (hh | hh)
          · exact hkb hh.symm
          · exact hkrest hh
        rw [if_neg hkmem]

theorem pendingTasks_nil (bears : List (Nat × List (TaskOutcome R)))
    (k : Nat) : pendingTasks bears ([] : List (Event R)) k = idsOf bears k := by
  simp [pendingTasks]

theorem pendingTasks_nodup (bears : List (Nat × List (TaskOutcome R)))
    (p : List (Event R)) (k : Nat) : (pendingTasks bears p k).Nodup :=
  (idsOf_nodup bears k).filter _

/-- Registry lookups after the loop has dispatched the event prefix `p`:
each bear key maps to exactly its outstanding task ids, with emptied
entries deleted. -/
theorem foldl_registry_char (cb : R → Option Nat)
    (bears : List (Nat × List (TaskOutcome R)))
    (hnd : (bears.map (fun b => b.1)).Nodup) :
    ∀ (p : List (Event R)),
      ((p.map (fun e => e.task)).Nodup) →
      (∀ e ∈ p, e.task ∈ idsOf bears e.bear) →
      ∀ k, dictGet ((p.foldl (finish_task cb)
          (runSched bears).1).registry) k =
        (if (pendingTasks bears p k).isEmpty then none
         else some (pendingTasks bears p k)) := by
  intro p
  induction p using List.reverseRecOn with
  | nil =>
    intro _ _ k
    rw [List.foldl_nil]
    have hchar := schedule_registry_char bears (initState R) 0 hnd
      (fun k _ => rfl) k
    show dictGet (schedule_bears (initState R) 0 bears).1.registry k = _
    rw [hchar, pendingTasks_nil]
    by_cases hmem : k ∈ bears.map (fun b => b.1)
    · rw [if_pos hmem]
      rfl
    · rw [if_neg hmem]
      show dictGet (initState R).registry k = _
      rw [show (idsOf bears k) = [] from idsOf_of_not_mem hmem]
      rfl
  | append_singleton p e ihp =>
    intro hndpe hmemIds k
    rw [List.foldl_append, List.foldl_cons, List.foldl_nil]
    have hsplit : (p.map (fun e => e.task)).Nodup ∧
        ¬ e.task ∈ p.map (fun e => e.task) := by
      rw [List.map_append] at hndpe
      rw [List.nodup_append] at hndpe
      refine ⟨hndpe.1, fun hm => ?_⟩
      exact hndpe.2.2 hm (List.mem_singleton_self _)
    have hmemp : ∀ e' ∈ p, e'.task ∈ idsOf bears e'.bear :=
      fun e' he' => hmemIds e' (List.mem_append_left _ he')
    have hS := ihp hsplit.1 hmemp
    have hte : e.task ∈ idsOf bears e.bear :=
      hmemIds e (List.mem_append_right _ (List.mem_singleton_self _))
    have hpend_mem : e.task ∈ pendingTasks bears p e.bear := by
      rw [pendingTasks]
      rw [List.mem_filter]
      exact ⟨hte, by simpa using hsplit.2⟩
    have hpne : ¬ (pendingTasks bears p e.bear).isEmpty = true := by
      rw [List.isEmpty_iff]
      exact List.ne_nil_of_mem hpend_mem
    have hgetb : dictGet ((p.foldl (finish_task cb)
        (runSched bears).1).registry) e.bear =
        some (pendingTasks bears p e.bear) := by
      rw [hS e.bear, if_neg hpne]
    have herase : (pendingTasks bears p e.bear).erase e.task =
        pendingTasks bears (p ++ [e]) e.bear := by
      rw [(pendingTasks_nodup bears p e.bear).erase_eq_filter]
      rw [pendingTasks, List.filter_filter, pendingTasks]
      refine List.filter_congr fun t htm => ?_
      rw [List.map_append]
      simp only [List.mem_append, List.mem_map, List.map_cons,
        List.mem_singleton, List.map_nil, bne_iff_ne, decide_not]
      by_cases h1 : t ∈ p.map (fun e => e.task) <;>
        by_cases h2 : t = e.task <;>
        simp [h1, h2, List.mem_map]
    have hregshape := finish_task_registry cb
      (p.foldl (finish_task cb) (runSched bears).1) e
    rw [hgetb] at hregshape
    have hregshape2 : (finish_task cb (p.foldl (finish_task cb)
        (runSched bears).1) e).registry =
        if (pendingTasks bears (p ++ [e]) e.bear).isEmpty then
          dictDel ((p.foldl (finish_task cb)
            (runSched bears).1).registry) e.bear
        else dictSet ((p.foldl (finish_task cb)
          (runSched bears).1).registry) e.bear
          (pendingTasks bears (p ++ [e]) e.bear) := by
      rw [hregshape]
      simp only [if_pos hpend_mem, herase]
    rw [hregshape2]
    by_cases hk : e.bear = k
    · rw [← hk]
      by_cases hemp : (pendingTasks bears (p ++ [e]) e.bear).isEmpty
      · rw [if_pos hemp, if_pos hemp]
        exact dictGet_dictDel_self _ _
      · rw [if_neg hemp, if_neg hemp]
        exact dictGet_dictSet_self _ _ _
    · have hpendeq : pendingTasks bears (p ++ [e]) k =
          pendingTasks bears p k := by
        rw [pendingTasks, pendingTasks]
        refine List.filter_congr fun t htm => ?_
        have htne : ¬ t = e.task := by
          intro hh
          have htm' : e.task ∈ idsOf bears k := hh ▸ htm
          exact hk (idsOf_unique hte htm')
        rw [List.map_append]
        simp [htne]
      by_cases hemp : (pendingTasks bears (p ++ [e]) e.bear).isEmpty
      · rw [if_pos hemp,
          dictGet_dictDel_ne _ _ _ (fun h => hk h.symm), hS k, hpendeq]
      · rw [if_neg hemp,
          dictGet_dictSet_ne _ _ _ _ (fun h => hk h.symm), hS k, hpendeq]

end CharLemmas

/-! ## Counting outstanding tasks -/

section CountLemmas

variable {R : Type}

theorem length_filter_or (l : List Nat) (p q : Nat → Bool)
    (h : ∀ t ∈ l, ¬ (p t = true ∧ q t = true)) :
    (l.filter (fun t => p t || q t)).length =
      (l.filter p).length + (l.filter q).length := by
  induction l with
  | nil => rfl
  | cons a l' ih =>
    have hnot := h a (List.mem_cons_self _ _)
    have ih' := ih (fun t ht => h t (List.mem_cons_of_mem _ ht))
    simp only [List.filter_cons]
    cases hp : p a <;> cases hq : q a
    · simp [hp, hq, ih']
    · simp [hp, hq, ih']
      omega
    · simp [hp, hq, ih']
      omega
    · exact absurd ⟨hp, hq⟩ hnot

theorem length_filter_single (B : List Nat) (hB : B.Nodup) (a : Nat) :
    (B.filter (fun t => t = a)).length = if a ∈ B then 1 else 0 := by
  induction B with
  | nil => simp
  | cons b B' ih =>
    have hcons := List.nodup_cons.mp hB
    simp only [List.filter_cons]
    by_cases hb : b = a
    · rw [if_pos (by simpa using hb)]
      have hnot : ¬ a ∈ B' := by
        rw [← hb]
        exact hcons.1
      have hzero : (B'.filter (fun t => t = a)).length = 0 := by
        rw [ih hcons.2, if_neg hnot]
      simp [hzero, hb]
    · rw [if_neg (by simpa using hb)]
      rw [ih hcons.2]
      by_cases ha : a ∈ B'
      · rw [if_pos ha, if_pos (List.mem_cons_of_mem _ ha)]
      · rw [if_neg ha, if_neg ?_]
        intro hm
        rcases List.mem_cons.mp hm with hh | hh
        · exact hb hh.symm
        · exact ha hh

theorem length_filter_mem_comm (A : List Nat) :
    ∀ (B : List Nat), A.Nodup → B.Nodup →
      (A.filter (fun t => t ∈ B)).length =
        (B.filter (fun t => t ∈ A)).length := by
  induction A with
  | nil =>
    intro B _ _
    simp
  | cons a A' ih =>
    intro B hA hB
    have hconsA := List.nodup_cons.mp hA
    have hcongr : B.filter (fun t => t ∈ a :: A') =
        B.filter (fun t => t = a || t ∈ A') := by
      refine List.filter_congr fun t _ => ?_
      simp [List.mem_cons]
    rw [hcongr, length_filter_or B _ _ ?_]
    · rw [length_filter_single B hB a, ← ih B hconsA.2 hB]
      by_cases hmem : a ∈ B
      · have hlhs : (List.filter (fun t => decide (t ∈ B)) (a :: A')).length
            = (List.filter (fun t => decide (t ∈ B)) A').length + 1 := by
          simp [List.filter_cons, hmem]
        rw [hlhs, if_pos hmem]
        omega
      · have hlhs : (List.filter (fun t => decide (t ∈ B)) (a :: A')).length
            = (List.filter (fun t => decide (t ∈ B)) A').length := by
          simp [List.filter_cons, hmem]
        rw [hlhs, if_neg hmem]
        omega
    · rintro t _ ⟨h1, h2⟩
      have hta : t = a := of_decide_eq_true h1
      have htA : t ∈ A' := of_decide_eq_true h2
      rw [hta] at htA
      exact hconsA.1 htA

theorem length_filter_not_add (l : List Nat) (p : Nat → Bool) :
    (l.filter p).length + (l.filter (fun t => ! p t)).length = l.length := by
  induction l with
  | nil => rfl
  | cons a l' ih =>
    simp only [List.filter_cons]
    cases hp : p a <;> simp [hp, ← ih] <;> omega

/-- Number of dispatched events of bear `k` plus its outstanding tasks
equals its total task count. -/
theorem pending_length_add_countP (bears : List (Nat × List (TaskOutcome R)))
    (p : List (Event R))
    (hpnd : (p.map (fun e => e.task)).Nodup)
    (hids : ∀ e ∈ p, e.task ∈ idsOf bears e.bear) (k : Nat) :
    (pendingTasks bears p k).length +
      p.countP (fun e => e.bear = k) = (idsOf bears k).length := by
  have h1 : p.countP (fun e => e.bear = k) =
      p.countP (fun e => e.task ∈ idsOf bears k) := by
    refine List.countP_congr fun e he => ?_
    constructor
    · intro hbk
      have := hids e he
      rw [of_decide_eq_true hbk] at this
      exact decide_eq_true this
    · intro htk
      have h2 := idsOf_unique (hids e he) (of_decide_eq_true htk)
      exact decide_eq_true h2
  have h2 : p.countP (fun e => e.task ∈ idsOf bears k) =
      ((p.map (fun e => e.task)).filter
        (fun t => t ∈ idsOf bears k)).length := by
    rw [← List.countP_eq_length_filter, List.countP_map]
    rfl
  have h3 : ((p.map (fun e => e.task)).filter
      (fun t => t ∈ idsOf bears k)).length =
      ((idsOf bears k).filter
        (fun t => t ∈ p.map (fun e => e.task))).length :=
    length_filter_mem_comm _ _ hpnd (idsOf_nodup bears k)
  rw [h1, h2, h3]
  have h4 := length_filter_not_add (idsOf bears k)
    (fun t => t ∈ p.map (fun e => e.task))
  have h5 : pendingTasks bears p k = (idsOf bears k).filter
      (fun t => ! decide (t ∈ p.map (fun e => e.task))) := by
    rw [pendingTasks]
    refine List.filter_congr fun t _ => ?_
    exact decide_not
  rw [h5]
  omega

theorem foldl_handlerCalls (cb : R → Option Nat) :
    ∀ (p : List (Event R)) (st : RunState R),
      (p.foldl (finish_task cb) st).handlerCalls =
        st.handlerCalls ++ p.map (fun e => (e.bear, e.task)) := by
  intro p
  induction p with
  | nil =>
    intro st
    simp
  | cons e rest ih =>
    intro st
    rw [List.foldl_cons, ih, finish_task_handlerCalls]
    simp [List.append_assoc]

end CountLemmas

/-! ## The loop as a fold when no premature stop occurs -/

section NoPrematureStop

variable {R : Type}

theorem run_forever_eq_foldl (cb : R → Option Nat) :
    ∀ (order : List (Event R)) (st : RunState R),
      (∀ p e q, order = p ++ e :: q →
        ((p.foldl (finish_task cb) st).stopping = false)) →
      ((order.foldl (finish_task cb) st).stopping = true) →
      run_forever cb order st =
        some (order.foldl (finish_task cb) st) := by
  intro order
  induction order with
  | nil =>
    intro st _ hfin
    rw [List.foldl_nil] at hfin ⊢
    exact run_forever_nil_stopped cb st hfin
  | cons e rest ih =>
    intro st hmid hfin
    have h0 : st.stopping = false := by
      have := hmid [] e rest rfl
      rw [List.foldl_nil] at this
      exact this
    rw [run_forever_cons_not_stopped cb e rest st h0, List.foldl_cons]
    refine ih (finish_task cb st e) ?_ ?_
    · intro p e' q hpq
      have := hmid (e :: p) e' q (by rw [hpq, List.cons_append])
      rw [List.foldl_cons] at this
      exact this
    · rw [← List.foldl_cons]
      exact hfin

theorem order_task_nodup_of_perm (bears : List (Nat × List (TaskOutcome R)))
    (order : List (Event R)) (hperm : order.Perm (runSched bears).2.1) :
    (order.map (fun e => e.task)).Nodup := by
  refine ((hperm.map (fun e => e.task)).nodup_iff).mpr ?_
  rw [(runSched_props bears).evTasks]
  exact List.nodup_range' 0 (totalTasks bears)

theorem order_task_mem_idsOf {bears : List (Nat × List (TaskOutcome R))}
    (hnd : (bears.map (fun b => b.1)).Nodup) {order : List (Event R)}
    (hperm : order.Perm (runSched bears).2.1) :
    ∀ e ∈ order, e.task ∈ idsOf bears e.bear := fun e he =>
  event_task_mem_idsOf hnd (hperm.mem_iff.mp he)

/-- Once the whole completion order has been dispatched, no bear has any
outstanding task left. -/
theorem pendingTasks_drained (bears : List (Nat × List (TaskOutcome R)))
    (order : List (Event R)) (hperm : order.Perm (runSched bears).2.1)
    (k : Nat) : pendingTasks bears order k = [] := by
  rw [pendingTasks, List.filter_eq_nil_iff]
  intro t ht
  obtain ⟨o, ho⟩ := idsOf_has_event (R := R) ht
  have hmm : t ∈ order.map (fun e => e.task) :=
    List.mem_map_of_mem (fun e => e.task) (hperm.mem_iff.mpr ho)
  simp [hmm]

/-- Master description of a run that enters the loop without a pending stop
signal: the loop dispatches every completion, the visited registries list
exactly the outstanding tasks of each bear (nonempty while events are
pending, empty at the end), and the run returns the folded final state. -/
theorem run_no_premature_stop_char (cb : R → Option Nat)
    (bears : List (Nat × List (TaskOutcome R))) (order : List (Event R))
    (hnd : (bears.map (fun b => b.1)).Nodup)
    (hperm : order.Perm (runSched bears).2.1)
    (hb : ¬ bears = [])
    (hstop : (runSched bears).1.stopping = false) :
    (∀ p q, order = p ++ q → ∀ k,
      dictGet ((p.foldl (finish_task cb) (runSched bears).1).registry) k =
        (if (pendingTasks bears p k).isEmpty then none
         else some (pendingTasks bears p k))) ∧
    (∀ p q, order = p ++ q → ¬ q = [] →
      ¬ (p.foldl (finish_task cb) (runSched bears).1).registry = []) ∧
    ((order.foldl (finish_task cb) (runSched bears).1).registry = []) ∧
    (run cb bears order =
      some (order.foldl (finish_task cb) (runSched bears).1)) := by
  have hordernodup : (order.map (fun e => e.task)).Nodup := by
    refine ((hperm.map (fun e => e.task)).nodup_iff).mpr ?_
    rw [(runSched_props bears).evTasks]
    exact List.nodup_range' 0 (totalTasks bears)
  have hids : ∀ e ∈ order, e.task ∈ idsOf bears e.bear := fun e he =>
    event_task_mem_idsOf hnd (hperm.mem_iff.mp he)
  have hprefix_nodup : ∀ p q : List (Event R), order = p ++ q →
      (p.map (fun e => e.task)).Nodup := by
    intro p q hpq
    refine List.Sublist.nodup ?_ hordernodup
    rw [hpq]
    exact (List.sublist_append_left p q).map _
  have hprefix_ids : ∀ p q : List (Event R), order = p ++ q →
      ∀ e ∈ p, e.task ∈ idsOf bears e.bear := by
    intro p q hpq e he
    refine hids e ?_
    rw [hpq]
    exact List.mem_append_left _ he
  have hchar : ∀ p q, order = p ++ q → ∀ k,
      dictGet ((p.foldl (finish_task cb) (runSched bears).1).registry) k =
        (if (pendingTasks bears p k).isEmpty then none
         else some (pendingTasks bears p k)) := by
    intro p q hpq k
    exact foldl_registry_char cb bears hnd p (hprefix_nodup p q hpq)
      (hprefix_ids p q hpq) k
  have hfullpending : ∀ k, pendingTasks bears order k = [] := by
    intro k
    rw [pendingTasks, List.filter_eq_nil_iff]
    intro t ht
    obtain ⟨o, ho⟩ := idsOf_has_event (R := R) ht
    have hmm : t ∈ order.map (fun e => e.task) :=
      List.mem_map_of_mem (fun e => e.task) (hperm.mem_iff.mpr ho)
    simp [hmm]
  have hfinalreg : (order.foldl (finish_task cb)
      (runSched bears).1).registry = [] := by
    cases hcase : (order.foldl (finish_task cb)
        (runSched bears).1).registry with
    | nil => rfl
    | cons hd tl =>
      exfalso
      have hdg : dictGet ((order.foldl (finish_task cb)
          (runSched bears).1).registry) hd.1 = some hd.2 := by
        rw [hcase, dictGet_cons, if_pos rfl]
      rw [hchar order [] (List.append_nil order).symm hd.1] at hdg
      rw [hfullpending hd.1] at hdg
      simp at hdg
  have hmidreg : ∀ p q, order = p ++ q → ¬ q = [] →
      ¬ (p.foldl (finish_task cb) (runSched bears).1).registry = [] := by
    intro p q hpq hq hreg
    cases q with
    | nil => exact hq rfl
    | cons e q' =>
      have he : e ∈ order := by
        rw [hpq]
        exact List.mem_append_right _ (List.mem_cons_self _ _)
      have hte : e.task ∈ idsOf bears e.bear := hids e he
      have hnotp : ¬ e.task ∈ p.map (fun e => e.task) := by
        have := hordernodup
        rw [hpq, List.map_append, List.nodup_append] at this
        intro hm
        refine this.2.2 hm ?_
        simp
      have hpend : e.task ∈ pendingTasks bears p e.bear := by
        rw [pendingTasks, List.mem_filter]
        exact ⟨hte, by simpa using hnotp⟩
      have hne : ¬ (pendingTasks bears p e.bear).isEmpty = true := by
        rw [List.isEmpty_iff]
        exact List.ne_nil_of_mem hpend
      have hdg := hchar p (e :: q') hpq e.bear
      rw [if_neg hne] at hdg
      have := dictGet_mem hdg
      rw [hreg] at this
      simp at this
  have hordne : ¬ order = [] := by
    intro h
    have hregne : ¬ (runSched bears).1.registry = [] := by
      intro hr
      rcases (runSched_props bears).stopEmpty hr with h1 | h1
      · rw [hstop] at h1
        exact absurd h1 (by simp)
      · exact hb h1
    have hevnil : (runSched bears).2.1 = [] := by
      have := hperm
      rw [h] at this
      exact (List.perm_nil.mp this.symm)
    have inv := runSched_loopInv bears
    cases hcase : (runSched bears).1.registry with
    | nil => exact hregne hcase
    | cons hd tl =>
      have hhd : hd ∈ (runSched bears).1.registry := by
        rw [hcase]
        exact List.mem_cons_self _ _
      have hnonempty := inv.entryNonempty hd hhd
      cases hp2 : hd.2 with
      | nil => exact hnonempty hp2
      | cons t ts =>
        have ht : t ∈ hd.2 := by
          rw [hp2]
          exact List.mem_cons_self _ _
        obtain ⟨o, ho⟩ := inv.hasEvent hd hhd t ht
        rw [hevnil] at ho
        simp at ho
  have hstopping : ∀ (p : List (Event R)), ∀ q, order = p ++ q →
      ((¬ q = [] → (p.foldl (finish_task cb)
          (runSched bears).1).stopping = false) ∧
        (q = [] → (p.foldl (finish_task cb)
          (runSched bears).1).stopping = true)) := by
    intro p
    induction p using List.reverseRecOn with
    | nil =>
      intro q hpq
      rw [List.foldl_nil]
      constructor
      · intro _
        exact hstop
      · intro hq
        rw [hq] at hpq
        exact absurd (by simpa using hpq) hordne
    | append_singleton p e ihp =>
      intro q hpq
      have hpq' : order = p ++ (e :: q) := by
        rw [hpq, List.append_assoc, List.singleton_append]
      have hprev := ihp (e :: q) hpq'
      have hprevstop : (p.foldl (finish_task cb)
          (runSched bears).1).stopping = false :=
        hprev.1 (by simp)
      have hprevreg : ¬ (p.foldl (finish_task cb)
          (runSched bears).1).registry = [] :=
        hmidreg p (e :: q) hpq' (by simp)
      have hconn := finish_task_stop_connection cb
        (p.foldl (finish_task cb) (runSched bears).1) e hprevstop hprevreg
      have hfold : (p ++ [e]).foldl (finish_task cb) (runSched bears).1 =
          finish_task cb (p.foldl (finish_task cb) (runSched bears).1) e := by
        rw [List.foldl_append, List.foldl_cons, List.foldl_nil]
      constructor
      · intro hq
        have h := hmidreg (p ++ [e]) q hpq hq
        rw [hfold] at h
        rw [hfold, hconn, List.isEmpty_eq_false]
        exact h
      · intro hq
        rw [hq, List.append_nil] at hpq
        have h : finish_task cb (p.foldl (finish_task cb)
            (runSched bears).1) e =
            order.foldl (finish_task cb) (runSched bears).1 := by
          rw [hpq, List.foldl_append, List.foldl_cons, List.foldl_nil]
        rw [hfold, hconn, List.isEmpty_iff, h]
        exact hfinalreg
  refine ⟨hchar, hmidreg, hfinalreg, ?_⟩
  show run_forever cb order (runSched bears).1 = _
  refine run_forever_eq_foldl cb order (runSched bears).1 ?_ ?_
  · intro p e q hpq
    exact (hstopping p (e :: q) hpq).1 (by simp)
  · exact (hstopping order [] (List.append_nil order).symm).2 rfl

end NoPrematureStop

/-! ## Claims about the scheduling core -/

section CoreClaims

variable {R : Type}

/-- C1 (counterexample): on the empty bear sequence, no cleanup ever calls
`event_loop.stop()`, so `run_forever` blocks forever and `run` never
returns, refuting the claim that `run` terminates for every finite input
sequence including the empty one. -/
theorem C1_cex_empty_input_hangs :
    run (fun _ => none) ([] : List (Nat × List (TaskOutcome Nat))) [] =
      none := rfl

/-- C1 (amended): for every nonempty input sequence, `run` terminates no
matter which tasks or callbacks fail and in which order the completions
arrive; moreover, whenever the stop signal was not already raised during
scheduling, the loop exits exactly in the Registry-empty state. -/
theorem C1_run_terminates_nonempty (cb : R → Option Nat)
    (bears : List (Nat × List (TaskOutcome R))) (order : List (Event R))
    (hb : ¬ bears = []) (hperm : order.Perm (runSched bears).2.1) :
    ∃ st', run cb bears order = some st' ∧
      ((runSched bears).1.stopping = false →
        st'.registry = [] ∧ st'.stopping = true) := by
  cases hstop : (runSched bears).1.stopping with
  | true =>
    exact ⟨(runSched bears).1, run_forever_stopped cb order _ hstop,
      fun h => absurd h (by simp)⟩
  | false =>
    have hne : ¬ (runSched bears).1.registry = [] := by
      intro h
      rcases (runSched_props bears).stopEmpty h with h1 | h1
      · rw [hstop] at h1
        exact absurd h1 (by simp)
      · exact hb h1
    have inv := loopInv_perm (runSched_loopInv bears) hperm.symm
    obtain ⟨st', h1, h2, h3⟩ := run_forever_drain cb order _ inv hstop hne
    exact ⟨st', h1, fun _ => ⟨h2, h3⟩⟩

theorem C1_run_terminates_nonempty_witness :
    (run (fun _ => none) [(0, [TaskOutcome.ok ([] : List Nat)])]
        (runSched [(0, [TaskOutcome.ok ([] : List Nat)])]).2.1).map
      (fun st => (st.registry, st.stopping)) = some ([], true) := by
  obtain ⟨st', h1, h2⟩ := C1_run_terminates_nonempty (fun _ => none)
    [(0, [TaskOutcome.ok ([] : List Nat)])]
    (runSched [(0, [TaskOutcome.ok ([] : List Nat)])]).2.1
    (by simp) (List.Perm.refl _)
  obtain ⟨h2a, h2b⟩ := h2 rfl
  rw [h1]
  simp [h2a, h2b]

/-- C2 (counterexample): a run that completes normally still performs zero
`executor.shutdown` calls — the source's `finally` only closes the event
loop — refuting the claim that the WorkerPool is released exactly once when
the run ends. -/
theorem C2_cex_pool_never_released :
    ((run_with_resources (fun _ => none) (some 4)
        [(0, [TaskOutcome.ok ([] : List Nat)])]
        (runSched [(0, [TaskOutcome.ok ([] : List Nat)])]).2.1).2.isSome
      = true) ∧
    ¬ ((run_with_resources (fun _ => none) (some 4)
        [(0, [TaskOutcome.ok ([] : List Nat)])]
        (runSched [(0, [TaskOutcome.ok ([] : List Nat)])]).2.1).1.poolShutdowns
      = 1) := by
  exact ⟨rfl, by decide⟩

/-- C2 (amended): `run` never explicitly shuts the worker pool down (the
shutdown count is 0 on every path); the event loop, by contrast, is closed
exactly once whenever `run_forever` returns, and not at all when the loop
blocks forever. -/
theorem C2_pool_not_released_loop_closed_once (cb : R → Option Nat)
    (cpus : Option Nat) (bears : List (Nat × List (TaskOutcome R)))
    (order : List (Event R)) :
    (run_with_resources cb cpus bears order).1.poolShutdowns = 0 ∧
    ((run cb bears order).isSome = true →
      (run_with_resources cb cpus bears order).1.loopCloses = 1) ∧
    ((run cb bears order).isSome = false →
      (run_with_resources cb cpus bears order).1.loopCloses = 0) := by
  unfold run_with_resources
  cases h : run cb bears order <;> simp [h]

theorem C2_pool_not_released_loop_closed_once_witness :
    ((run_with_resources (fun _ => none) (some 4)
        [(0, [TaskOutcome.ok ([] : List Nat)])]
        (runSched [(0, [TaskOutcome.ok ([] : List Nat)])]).2.1).1.poolShutdowns
      = 0) ∧
    ((run_with_resources (fun _ => none) (some 4)
        [(0, [TaskOutcome.ok ([] : List Nat)])]
        (runSched [(0, [TaskOutcome.ok ([] : List Nat)])]).2.1).1.loopCloses
      = 1) := by
  obtain ⟨ha, hb, _⟩ := C2_pool_not_released_loop_closed_once
    (fun _ => none) (some 4) [(0, [TaskOutcome.ok ([] : List Nat)])]
    (runSched [(0, [TaskOutcome.ok ([] : List Nat)])]).2.1
  exact ⟨ha, hb rfl⟩

/-- C3 (counterexample): scheduling the same bear object (same dict key)
twice yields a single Registry entry — the second occurrence's assignment
`running_tasks[bear] = tasks` overwrites the first occurrence's task set —
refuting the claim that the two occurrences get independent entries. -/
theorem C3_cex_duplicate_bear_overwritten :
    ((runSched [(7, [TaskOutcome.ok ([] : List Nat)]),
        (7, [TaskOutcome.ok ([] : List Nat)])]).1.registry = [(7, [1])]) ∧
    ¬ ((runSched [(7, [TaskOutcome.ok ([] : List Nat)]),
        (7, [TaskOutcome.ok ([] : List Nat)])]).1.registry.length = 2) := by
  exact ⟨rfl, by decide⟩

/-- C3 (amended): two occurrences of the same bear object share one
Registry entry holding only the second occurrence's task set (dict
assignment overwrites in place), while two bears with distinct dict keys do
get independent entries, each holding its own task set. -/
theorem C3_duplicate_overwrites_distinct_independent (k : Nat)
    (o1 o2 : List (TaskOutcome R)) (h1 : ¬ o1 = []) (h2 : ¬ o2 = []) :
    ((runSched [(k, o1), (k, o2)]).1.registry =
      [(k, List.range' o1.length o2.length)]) ∧
    (∀ k1 k2 : Nat, ¬ k1 = k2 →
      (runSched [(k1, o1), (k2, o2)]).1.registry =
        [(k1, List.range' 0 o1.length),
          (k2, List.range' o1.length o2.length)]) := by
  have hne1 : (List.range' 0 o1.length).isEmpty = false := by
    rw [List.isEmpty_eq_false]
    intro hh
    rw [List.range'_eq_nil] at hh
    exact h1 (List.length_eq_zero.mp hh)
  have hne2 : ∀ s : Nat, (List.range' s o2.length).isEmpty = false := by
    intro s
    rw [List.isEmpty_eq_false]
    intro hh
    rw [List.range'_eq_nil] at hh
    exact h2 (List.length_eq_zero.mp hh)
  constructor
  · show (schedule_bears (initState R) 0 [(k, o1), (k, o2)]).1.registry = _
    rw [schedule_bears]
    rw [if_neg (by rw [hne1]; exact Bool.false_ne_true)]
    rw [schedule_bears]
    rw [if_neg (by rw [hne2]; exact Bool.false_ne_true)]
    rw [schedule_bears]
    show (dictSet (dictSet [] k (List.range' 0 o1.length)) k
      (List.range' (0 + o1.length) o2.length)) = _
    have hd1 : dictSet ([] : List (Nat × List Nat)) k
        (List.range' 0 o1.length) = [(k, List.range' 0 o1.length)] := rfl
    rw [hd1]
    have hd2 : dictSet [(k, List.range' 0 o1.length)] k
        (List.range' (0 + o1.length) o2.length) =
        [(k, List.range' (0 + o1.length) o2.length)] := by
      unfold dictSet
      rw [if_pos (by simp)]
      simp
    rw [hd2, Nat.zero_add]
  · intro k1 k2 hk
    show (schedule_bears (initState R) 0 [(k1, o1), (k2, o2)]).1.registry = _
    rw [schedule_bears]
    rw [if_neg (by rw [hne1]; exact Bool.false_ne_true)]
    rw [schedule_bears]
    rw [if_neg (by rw [hne2]; exact Bool.false_ne_true)]
    rw [schedule_bears]
    show (dictSet (dictSet [] k1 (List.range' 0 o1.length)) k2
      (List.range' (0 + o1.length) o2.length)) = _
    have hd1 : dictSet ([] : List (Nat × List Nat)) k1
        (List.range' 0 o1.length) = [(k1, List.range' 0 o1.length)] := rfl
    rw [hd1]
    have hnm : ¬ k2 ∈ ([(k1, List.range' 0 o1.length)].map
        (fun p => p.1)) := by
      simp only [List.map_cons, List.map_nil, List.mem_cons,
        List.not_mem_nil, or_false]
      exact fun h => hk h.symm
    have hd2 : dictSet [(k1, List.range' 0 o1.length)] k2
        (List.range' (0 + o1.length) o2.length) =
        [(k1, List.range' 0 o1.length),
          (k2, List.range' (0 + o1.length) o2.length)] := by
      unfold dictSet
      rw [if_neg hnm]
      rfl
    rw [hd2, Nat.zero_add]

theorem C3_duplicate_overwrites_distinct_independent_witness :
    ((runSched [(7, [TaskOutcome.ok ([5] : List Nat)]),
        (7, [TaskOutcome.error 3])]).1.registry = [(7, [1])]) ∧
    ((runSched [(7, [TaskOutcome.ok ([5] : List Nat)]),
        (9, [TaskOutcome.error 3])]).1.registry = [(7, [0]), (9, [1])]) := by
  obtain ⟨ha, hb⟩ := C3_duplicate_overwrites_distinct_independent 7
    [TaskOutcome.ok ([5] : List Nat)] [TaskOutcome.error 3]
    (by simp) (by simp)
  exact ⟨ha, hb 7 9 (by decide)⟩

/-- C9: `get_cpu_count` returns the reported core count, returns 1 when
`multiprocessing.cpu_count()` raises `NotImplementedError` (the only
outcome the platform query is documented to produce besides a count), and —
being a total function of the query outcome — never raises itself; `run`
sizes the worker pool with exactly this value. -/
theorem C9_get_cpu_count_total (cpus : Option Nat) :
    (∀ n : Nat, cpus = some n → get_cpu_count cpus = n) ∧
    (cpus = none → get_cpu_count cpus = 1) ∧
    (∀ (cb : Nat → Option Nat) (bears : List (Nat × List (TaskOutcome Nat)))
      (order : List (Event Nat)),
      (run_with_resources cb cpus bears order).1.poolMaxWorkers =
        get_cpu_count cpus) := by
  refine ⟨?_, ?_, ?_⟩
  · rintro n rfl
    rfl
  · rintro rfl
    rfl
  · intro cb bears order
    unfold run_with_resources
    cases run cb bears order <;> rfl

theorem C9_get_cpu_count_total_witness :
    get_cpu_count (some 8) = 8 ∧ get_cpu_count none = 1 :=
  ⟨(C9_get_cpu_count_total (some 8)).1 8 rfl,
    (C9_get_cpu_count_total none).2.1 rfl⟩

/-- C5 (counterexample): the record that `finish_task` passes to
`logging.error` on a task failure is the fixed message plus the exception
info and nothing else, so two runs whose failing bears differ (dict keys 7
versus 9) produce identical error logs: the bear's identity is not part of
the logged context, refuting that part of the claim. -/
theorem C5_cex_log_lacks_bear_identity :
    ((run (fun _ => none) [(7, [(TaskOutcome.error 5 : TaskOutcome Nat)])]
        (runSched [(7, [(TaskOutcome.error 5 : TaskOutcome Nat)])]).2.1).map
      (fun st => st.errorLog) =
    (run (fun _ => none) [(9, [(TaskOutcome.error 5 : TaskOutcome Nat)])]
        (runSched [(9, [(TaskOutcome.error 5 : TaskOutcome Nat)])]).2.1).map
      (fun st => st.errorLog)) ∧
    ((run (fun _ => none) [(7, [(TaskOutcome.error 5 : TaskOutcome Nat)])]
        (runSched [(7, [(TaskOutcome.error 5 : TaskOutcome Nat)])]).2.1).map
      (fun st => st.errorLog) =
      some [⟨bearExecutionMsg, 5⟩]) := ⟨rfl, rfl⟩

/-- C5 (amended): a task-execution failure is logged (fixed message plus
exception info; the bear's identity is not part of the record) and treated
as no results; the handle is still removed and cleanup still runs, no other
task is stopped or retried, and the other bears' results are delivered:
with bear A (one failing task) and bear B (one task succeeding with `[r]`),
the run completes under every completion order, both completion handlers
run, and `result_callback` is invoked exactly once, with `r`. -/
theorem C5_task_failure_isolated (cb : R → Option Nat) (r : R) (ex : Nat)
    (order : List (Event R))
    (hperm : order.Perm (runSched [(0, [TaskOutcome.error ex]),
      (1, [TaskOutcome.ok [r]])]).2.1) :
    ∃ st', run cb [(0, [TaskOutcome.error ex]), (1, [TaskOutcome.ok [r]])]
        order = some st' ∧
      st'.callbackCalls = [r] ∧ st'.registry = [] ∧ st'.stopping = true ∧
      (⟨bearExecutionMsg, ex⟩ : LogRecord) ∈ st'.errorLog ∧
      st'.handlerCalls.length = 2 := by
  have hev : (runSched [(0, [TaskOutcome.error ex]),
      (1, [TaskOutcome.ok [r]])]).2.1 =
      [⟨0, 0, TaskOutcome.error ex⟩, ⟨1, 1, TaskOutcome.ok [r]⟩] := rfl
  rw [hev] at hperm
  rcases perm_pair hperm with rfl | rfl
  · -- A's failing task completes first
    have h0 : run cb [(0, [TaskOutcome.error ex]), (1, [TaskOutcome.ok [r]])]
        [⟨0, 0, TaskOutcome.error ex⟩, ⟨1, 1, TaskOutcome.ok [r]⟩] =
        run_forever cb
          [⟨0, 0, TaskOutcome.error ex⟩, ⟨1, 1, TaskOutcome.ok [r]⟩]
          (runSched [(0, [TaskOutcome.error ex]),
            (1, [TaskOutcome.ok [r]])]).1 := rfl
    rw [h0, run_forever_cons_not_stopped _ _ _ _ rfl]
    have hA : finish_task cb
        (runSched [(0, [TaskOutcome.error ex]),
          (1, [TaskOutcome.ok [r]])]).1 ⟨0, 0, TaskOutcome.error ex⟩ =
        ⟨[(1, [1])], false, [(0, 0)], [⟨bearExecutionMsg, ex⟩], []⟩ := rfl
    rw [hA, run_forever_cons_not_stopped _ _ _ _ rfl]
    have hB : finish_task cb
        (⟨[(1, [1])], false, [(0, 0)], [⟨bearExecutionMsg, ex⟩], []⟩ :
          RunState R) ⟨1, 1, TaskOutcome.ok [r]⟩ =
        List.foldl (forward_result cb)
          ⟨[], true, [(0, 0), (1, 1)], [⟨bearExecutionMsg, ex⟩], []⟩ [r] := rfl
    rw [hB, forward_foldl_eq, run_forever_nil_stopped _ _ rfl]
    refine ⟨_, rfl, rfl, rfl, rfl, ?_, rfl⟩
    exact List.mem_append_left _ (List.mem_cons_self _ _)
  · -- B's succeeding task completes first
    have h0 : run cb [(0, [TaskOutcome.error ex]), (1, [TaskOutcome.ok [r]])]
        [⟨1, 1, TaskOutcome.ok [r]⟩, ⟨0, 0, TaskOutcome.error ex⟩] =
        run_forever cb
          [⟨1, 1, TaskOutcome.ok [r]⟩, ⟨0, 0, TaskOutcome.error ex⟩]
          (runSched [(0, [TaskOutcome.error ex]),
            (1, [TaskOutcome.ok [r]])]).1 := rfl
    rw [h0, run_forever_cons_not_stopped _ _ _ _ rfl]
    have hA : finish_task cb
        (runSched [(0, [TaskOutcome.error ex]),
          (1, [TaskOutcome.ok [r]])]).1 ⟨1, 1, TaskOutcome.ok [r]⟩ =
        List.foldl (forward_result cb)
          ⟨[(0, [0])], false, [(1, 1)], [], []⟩ [r] := rfl
    rw [hA, forward_foldl_eq]
    rw [run_forever_cons_not_stopped _ _ _ _ rfl]
    have hB : finish_task cb
        ({ registry := [(0, [0])]
           stopping := false
           handlerCalls := [(1, 1)]
           errorLog := [] ++ [r].filterMap
             (fun r => (cb r).map (fun e2 => LogRecord.mk resultHandlingMsg e2))
           callbackCalls := [] ++ [r] } : RunState R)
        ⟨0, 0, TaskOutcome.error ex⟩ =
        ⟨[], true, [(1, 1), (0, 0)],
          ([] ++ [r].filterMap
            (fun r => (cb r).map (fun e2 => LogRecord.mk resultHandlingMsg e2)))
            ++ [LogRecord.mk bearExecutionMsg ex],
          [] ++ [r]⟩ := rfl
    rw [hB, run_forever_nil_stopped _ _ rfl]
    refine ⟨_, rfl, rfl, rfl, rfl, ?_, rfl⟩
    exact List.mem_append_right _ (List.mem_cons_self _ _)

theorem C5_task_failure_isolated_witness :
    ∃ st', run (fun _ => none) [(0, [(TaskOutcome.error 5 : TaskOutcome Nat)]),
        (1, [TaskOutcome.ok [7]])]
        (runSched [(0, [(TaskOutcome.error 5 : TaskOutcome Nat)]),
          (1, [TaskOutcome.ok [7]])]).2.1 = some st' ∧
      st'.callbackCalls = [7] ∧ st'.registry = [] ∧ st'.stopping = true ∧
      (⟨bearExecutionMsg, 5⟩ : LogRecord) ∈ st'.errorLog ∧
      st'.handlerCalls.length = 2 :=
  C5_task_failure_isolated (fun _ => none) 7 5 _ (List.Perm.refl _)

/-- C6: an exception raised by `result_callback` while processing one
result is caught and logged individually and stops nothing: for a task
producing `[r1, r2, r3]` (and a second bear whose task produces `[r4]`),
the callback is invoked with every result in production order no matter on
which results it raises, the error log records exactly the results whose
callback invocation raised, and the run still drains both bears. -/
theorem C6_callback_failure_isolated (cb : R → Option Nat)
    (r1 r2 r3 r4 : R) :
    ∃ st', run cb [(0, [TaskOutcome.ok [r1, r2, r3]]),
        (1, [TaskOutcome.ok [r4]])]
        (runSched [(0, [TaskOutcome.ok [r1, r2, r3]]),
          (1, [TaskOutcome.ok [r4]])]).2.1 = some st' ∧
      st'.callbackCalls = [r1, r2, r3, r4] ∧
      st'.errorLog = [r1, r2, r3, r4].filterMap
        (fun r => (cb r).map (fun e2 => LogRecord.mk resultHandlingMsg e2)) ∧
      st'.registry = [] ∧ st'.stopping = true := by
  have h0 : run cb [(0, [TaskOutcome.ok [r1, r2, r3]]),
      (1, [TaskOutcome.ok [r4]])]
      (runSched [(0, [TaskOutcome.ok [r1, r2, r3]]),
        (1, [TaskOutcome.ok [r4]])]).2.1 =
      run_forever cb
        [⟨0, 0, TaskOutcome.ok [r1, r2, r3]⟩, ⟨1, 1, TaskOutcome.ok [r4]⟩]
        (runSched [(0, [TaskOutcome.ok [r1, r2, r3]]),
          (1, [TaskOutcome.ok [r4]])]).1 := rfl
  rw [h0, run_forever_cons_not_stopped _ _ _ _ rfl]
  have hA : finish_task cb
      (runSched [(0, [TaskOutcome.ok [r1, r2, r3]]),
        (1, [TaskOutcome.ok [r4]])]).1
      ⟨0, 0, TaskOutcome.ok [r1, r2, r3]⟩ =
      List.foldl (forward_result cb)
        ⟨[(1, [1])], false, [(0, 0)], [], []⟩ [r1, r2, r3] := rfl
  rw [hA, forward_foldl_eq]
  rw [run_forever_cons_not_stopped _ _ _ _ rfl]
  have hB : finish_task cb
      ({ registry := [(1, [1])]
         stopping := false
         handlerCalls := [(0, 0)]
         errorLog := [] ++ [r1, r2, r3].filterMap
           (fun r => (cb r).map (fun e2 => LogRecord.mk resultHandlingMsg e2))
         callbackCalls := [] ++ [r1, r2, r3] } : RunState R)
      ⟨1, 1, TaskOutcome.ok [r4]⟩ =
      List.foldl (forward_result cb)
        ⟨[], true, [(0, 0), (1, 1)],
          [] ++ [r1, r2, r3].filterMap
            (fun r => (cb r).map (fun e2 => LogRecord.mk resultHandlingMsg e2)),
          [] ++ [r1, r2, r3]⟩ [r4] := rfl
  rw [hB, forward_foldl_eq, run_forever_nil_stopped _ _ rfl]
  refine ⟨_, rfl, rfl, ?_, rfl, rfl⟩
  show ([] ++ [r1, r2, r3].filterMap
      (fun r => (cb r).map (fun e2 => LogRecord.mk resultHandlingMsg e2))) ++
      [r4].filterMap
        (fun r => (cb r).map (fun e2 => LogRecord.mk resultHandlingMsg e2)) =
    [r1, r2, r3, r4].filterMap
      (fun r => (cb r).map (fun e2 => LogRecord.mk resultHandlingMsg e2))
  rw [List.nil_append]
  rw [show ([r1, r2, r3, r4] : List R) = [r1, r2, r3] ++ [r4] from rfl,
    List.filterMap_append]

/-- C4 (counterexample): a bear with zero tasks whose cleanup runs while
the Registry is momentarily empty raises the stop signal during scheduling,
so the loop exits before dispatching any completion: the later bear has one
generated task (`k = 1`) yet its completion handler is invoked 0 times and
its Registry entry is never removed, refuting the claim that the handler
runs exactly `k` times for every bear. -/
theorem C4_cex_premature_stop_skips_handler :
    ∃ st, run (fun _ => none)
        [((2 : Nat), ([] : List (TaskOutcome Nat))), (3, [TaskOutcome.ok [5]])]
        [⟨3, 0, TaskOutcome.ok [5]⟩] = some st ∧
      st.handlerCalls.countP (fun c => c.1 = 3) = 0 ∧
      dictGet st.registry 3 = some [0] :=
  ⟨_, rfl, rfl, rfl⟩

/-- C4 (amended): whenever the scheduling phase does not raise the stop
signal (no zero-task bear empties the Registry mid-scheduling), each bear
with `k` generated tasks has its completion handler invoked exactly `k`
times; after any dispatched event prefix the bear's Registry entry is
present exactly while its dispatch count is below `k` (so it disappears
exactly with the `k`-th invocation), and a bear whose task list is empty is
removed already during scheduling, before the loop runs. -/
theorem C4_handler_count_and_removal (cb : R → Option Nat)
    (bears : List (Nat × List (TaskOutcome R))) (order : List (Event R))
    (hnd : (bears.map (fun b => b.1)).Nodup)
    (hperm : order.Perm (runSched bears).2.1)
    (hb : ¬ bears = [])
    (hstop : (runSched bears).1.stopping = false) :
    (run cb bears order =
      some (order.foldl (finish_task cb) (runSched bears).1)) ∧
    (∀ b ∈ bears,
      (order.foldl (finish_task cb) (runSched bears).1).handlerCalls.countP
        (fun c => c.1 = b.1) = b.2.length) ∧
    (∀ b ∈ bears, ∀ p q, order = p ++ q →
      ((dictGet ((p.foldl (finish_task cb)
          (runSched bears).1).registry) b.1).isSome ↔
        p.countP (fun e => e.bear = b.1) < b.2.length)) ∧
    (∀ b ∈ bears, b.2 = [] →
      dictGet (runSched bears).1.registry b.1 = none) := by
  obtain ⟨hchar, -, -, hrun⟩ :=
    run_no_premature_stop_char cb bears order hnd hperm hb hstop
  have hordnd := order_task_nodup_of_perm bears order hperm
  have hids := order_task_mem_idsOf hnd hperm
  refine ⟨hrun, ?_, ?_, ?_⟩
  · intro b hbmem
    rw [foldl_handlerCalls, (runSched_props bears).hCalls]
    have hinit : (initState R).handlerCalls = [] := rfl
    rw [hinit, List.nil_append, List.countP_map]
    have hpend := pending_length_add_countP bears order hordnd hids b.1
    rw [pendingTasks_drained bears order hperm b.1] at hpend
    have hlen : (idsOf bears b.1).length = b.2.length :=
      idsOfAux_length 0 bears b.1 b.2 hbmem hnd
    show order.countP (fun e => e.bear = b.1) = b.2.length
    simp only [List.length_nil] at hpend
    omega
  · intro b hbmem p q hpq
    have hprefnd : (p.map (fun e => e.task)).Nodup := by
      refine List.Sublist.nodup ?_ hordnd
      rw [hpq]
      exact (List.sublist_append_left p q).map _
    have hprefids : ∀ e ∈ p, e.task ∈ idsOf bears e.bear := by
      intro e he
      refine hids e ?_
      rw [hpq]
      exact List.mem_append_left _ he
    have hdg := hchar p q hpq b.1
    have hcnt := pending_length_add_countP bears p hprefnd hprefids b.1
    have hlen : (idsOf bears b.1).length = b.2.length :=
      idsOfAux_length 0 bears b.1 b.2 hbmem hnd
    constructor
    · intro hsome
      by_cases hemp : (pendingTasks bears p b.1).isEmpty = true
      · rw [if_pos hemp] at hdg
        rw [hdg] at hsome
        simp at hsome
      · have hne : ¬ pendingTasks bears p b.1 = [] := by
          rwa [List.isEmpty_iff] at hemp
        have hpos : 0 < (pendingTasks bears p b.1).length :=
          List.length_pos.mpr hne
        omega
    · intro hlt
      have hne : ¬ (pendingTasks bears p b.1).isEmpty = true := by
        rw [List.isEmpty_iff]
        intro hnil
        rw [hnil] at hcnt
        simp only [List.length_nil, Nat.zero_add] at hcnt
        omega
      rw [if_neg hne] at hdg
      rw [hdg]
      rfl
  · intro b hbmem hb2
    have hchar0 := schedule_registry_char bears (initState R) 0 hnd
      (fun k _ => rfl) b.1
    have hkm : b.1 ∈ bears.map (fun x => x.1) :=
      List.mem_map_of_mem _ hbmem
    have hl0 : (idsOfAux R 0 bears b.1).length = 0 := by
      rw [idsOfAux_length 0 bears b.1 b.2 hbmem hnd, hb2]
      rfl
    have hidsb : idsOfAux R 0 bears b.1 = [] :=
      List.eq_nil_of_length_eq_zero hl0
    show dictGet (schedule_bears (initState R) 0 bears).1.registry b.1 = none
    rw [hchar0, if_pos hkm, hidsb]
    rfl

theorem C4_handler_count_and_removal_witness :
    (run (fun _ => none) [((0 : Nat), [TaskOutcome.ok [(5 : Nat)]])]
        (runSched [((0 : Nat), [TaskOutcome.ok [(5 : Nat)]])]).2.1 =
      some ((runSched [((0 : Nat),
          [TaskOutcome.ok [(5 : Nat)]])]).2.1.foldl
        (finish_task (fun _ => none))
        (runSched [((0 : Nat), [TaskOutcome.ok [(5 : Nat)]])]).1)) ∧
    (∀ b ∈ [((0 : Nat), [TaskOutcome.ok [(5 : Nat)]])],
      ((runSched [((0 : Nat),
          [TaskOutcome.ok [(5 : Nat)]])]).2.1.foldl
        (finish_task (fun _ => none))
        (runSched [((0 : Nat),
          [TaskOutcome.ok [(5 : Nat)]])]).1).handlerCalls.countP
        (fun c => c.1 = b.1) = b.2.length) ∧
    (∀ b ∈ [((0 : Nat), [TaskOutcome.ok [(5 : Nat)]])], ∀ p q,
      (runSched [((0 : Nat), [TaskOutcome.ok [(5 : Nat)]])]).2.1 = p ++ q →
      ((dictGet ((p.foldl (finish_task (fun _ => none))
          (runSched [((0 : Nat),
            [TaskOutcome.ok [(5 : Nat)]])]).1).registry) b.1).isSome ↔
        p.countP (fun e => e.bear = b.1) < b.2.length)) ∧
    (∀ b ∈ [((0 : Nat), [TaskOutcome.ok [(5 : Nat)]])], b.2 = [] →
      dictGet (runSched
        [((0 : Nat), [TaskOutcome.ok [(5 : Nat)]])]).1.registry b.1 =
        none) :=
  C4_handler_count_and_removal (fun _ => none)
    [((0 : Nat), [TaskOutcome.ok [(5 : Nat)]])] _
    (by decide) (List.Perm.refl _) (by decide) rfl

/-- C7 (counterexample): the run on a zero-task bear followed by a one-task
bear returns (the loop observes the stop raised during scheduling), yet the
Registry at return still holds the second bear's entry, refuting the claim
that the run is complete exactly when the Registry is empty. -/
theorem C7_cex_run_returns_with_nonempty_registry :
    ∃ st, run (fun _ => none)
        [((4 : Nat), ([] : List (TaskOutcome Nat))), (5, [TaskOutcome.ok [6]])]
        [⟨5, 0, TaskOutcome.ok [6]⟩] = some st ∧
      st.registry = [(5, [0])] ∧ ¬ st.registry = [] :=
  ⟨_, rfl, rfl, by decide⟩

/-- C7 (amended): whenever the scheduling phase does not raise the stop
signal, after every dispatched event prefix a bear is a key of the Registry
exactly when it still has at least one outstanding task handle (cleanup
runs synchronously inside the completion handler, so there is no
intermediate zero-handle state between events); the Registry is nonempty at
every step before the last event and empty after the last one, and the run
returns exactly then.  Without that proviso, the loop can return with a
nonempty Registry. -/
theorem C7_registry_keys_iff_outstanding (cb : R → Option Nat)
    (bears : List (Nat × List (TaskOutcome R))) (order : List (Event R))
    (hnd : (bears.map (fun b => b.1)).Nodup)
    (hperm : order.Perm (runSched bears).2.1)
    (hb : ¬ bears = [])
    (hstop : (runSched bears).1.stopping = false) :
    (∀ p q, order = p ++ q → ∀ k,
      (k ∈ ((p.foldl (finish_task cb) (runSched bears).1).registry.map
          (fun en => en.1)) ↔ ¬ pendingTasks bears p k = [])) ∧
    (∀ p q, order = p ++ q → ¬ q = [] →
      ¬ (p.foldl (finish_task cb) (runSched bears).1).registry = []) ∧
    ((order.foldl (finish_task cb) (runSched bears).1).registry = []) ∧
    (run cb bears order =
      some (order.foldl (finish_task cb) (runSched bears).1)) := by
  obtain ⟨hchar, hmid, hfin, hrun⟩ :=
    run_no_premature_stop_char cb bears order hnd hperm hb hstop
  refine ⟨?_, hmid, hfin, hrun⟩
  intro p q hpq k
  have hdg := hchar p q hpq k
  constructor
  · intro hmem
    have hsome := dictGet_isSome_of_mem_keys hmem
    intro hnil
    rw [hdg, hnil] at hsome
    simp at hsome
  · intro hne
    have hni : ¬ (pendingTasks bears p k).isEmpty = true := by
      rw [List.isEmpty_iff]
      exact hne
    rw [if_neg hni] at hdg
    by_contra hnm
    rw [dictGet_eq_none_of_not_mem_keys hnm] at hdg
    simp at hdg

theorem C7_registry_keys_iff_outstanding_witness :
    (∀ p q, (runSched [((0 : Nat),
        [TaskOutcome.ok [(5 : Nat)]])]).2.1 = p ++ q → ∀ k,
      (k ∈ ((p.foldl (finish_task (fun _ => none))
          (runSched [((0 : Nat),
            [TaskOutcome.ok [(5 : Nat)]])]).1).registry.map
          (fun en => en.1)) ↔
        ¬ pendingTasks [((0 : Nat), [TaskOutcome.ok [(5 : Nat)]])] p k =
          [])) ∧
    (∀ p q, (runSched [((0 : Nat),
        [TaskOutcome.ok [(5 : Nat)]])]).2.1 = p ++ q → ¬ q = [] →
      ¬ (p.foldl (finish_task (fun _ => none))
        (runSched [((0 : Nat),
          [TaskOutcome.ok [(5 : Nat)]])]).1).registry = []) ∧
    (((runSched [((0 : Nat), [TaskOutcome.ok [(5 : Nat)]])]).2.1.foldl
      (finish_task (fun _ => none))
      (runSched [((0 : Nat),
        [TaskOutcome.ok [(5 : Nat)]])]).1).registry = []) ∧
    (run (fun _ => none) [((0 : Nat), [TaskOutcome.ok [(5 : Nat)]])]
        (runSched [((0 : Nat), [TaskOutcome.ok [(5 : Nat)]])]).2.1 =
      some ((runSched [((0 : Nat),
          [TaskOutcome.ok [(5 : Nat)]])]).2.1.foldl
        (finish_task (fun _ => none))
        (runSched [((0 : Nat), [TaskOutcome.ok [(5 : Nat)]])]).1)) :=
  C7_registry_keys_iff_outstanding (fun _ => none)
    [((0 : Nat), [TaskOutcome.ok [(5 : Nat)]])] _
    (by decide) (List.Perm.refl _) (by decide) rfl

end CoreClaims

end Coala
